import Mathlib

/-!
# MeshLoaderObj: a shallow embedding of `RecastDemo/Source/MeshLoaderObj.cpp`

Conventions of the embedding.

* A `char*` cursor is the list of characters from the cursor to the end of
  the storage it points into.  For the input buffer the end is `bufEnd`; for
  a row the end is the terminator `parseRow` writes at `row[n]`, so that
  reading the empty list reads `'\0'`.
* `int` values are mathematical integers.  The counters of the mesh cannot
  wrap for buffers whose size fits the 32-bit `long` the loader reads it into;
  the result of `atoi` is reduced to the 32-bit `int` it is stored in.  Where
  the binary cache needs 32-bit values the range is an explicit hypothesis.
* `float` values are 32-bit patterns (`F32`).  The rounding operations of the
  arithmetic are a parameter (`FloatArith`); `binary32` is the IEEE-754
  round-to-nearest-even instance.
* Loops whose trip count is not syntactically bounded carry a fuel argument
  and return `none` when it runs out; totality lemmas show that the fuel
  supplied by the wrappers always suffices.
-/

set_option maxRecDepth 100000
set_option maxHeartbeats 2000000

namespace MeshLoaderObj

/-! ## Characters -/

/-- The string terminator. -/
def NUL : Char := Char.ofNat 0

/-- Test `*p == 0` for a cursor into terminated storage. -/
def atEnd : List Char → Bool
  | [] => true
  | c :: _ => c == NUL

/-- The test `c == ' ' || c == '\t'` used by both tokenizers. -/
def isBlank (c : Char) : Bool := c == ' ' || c == '\t'

/-- The C library classification `isspace` in the "C" locale. -/
def isspace (c : Char) : Bool :=
  c == ' ' || c == '\t' || c == '\n' || c == Char.ofNat 11 || c == Char.ofNat 12 || c == '\r'

/-- The C library classification `isdigit`. -/
def isdigit (c : Char) : Bool := decide ('0'.toNat ≤ c.toNat ∧ c.toNat ≤ '9'.toNat)

/-- Content of the C string a cursor points at: the characters before the first terminator. -/
def cstr (s : List Char) : List Char := s.takeWhile (fun c => c != NUL)

/-! ## parseRow (lines 56-90) -/

/-- The `while` loop of `parseRow`.  Arguments: row capacity `len`, the
cursor `buf`, the flag `start`, and the characters stored so far
(`row[0..n)`).  The loop exits when `done` is set or the buffer is
exhausted; the result is the stored characters and the returned cursor. -/
def parseRowLoop (len : Int) : List Char → Bool → List Char → List Char × List Char
  | [], _, row => (row, [])
  | c :: buf, start, row =>
    if c = '\\' then parseRowLoop len buf start row
    else if c = '\n' then
      if start then parseRowLoop len buf start row else (row, buf)
    else if c = '\r' then parseRowLoop len buf start row
    else if (c = '\t' ∨ c = ' ') ∧ start = true then parseRowLoop len buf start row
    else
      if ((row.length : Int) + 1 ≥ len - 1) then (row ++ [c], buf)
      else parseRowLoop len buf false (row ++ [c])

/-- Function `parseRow(buf, bufEnd, row, len)`: the characters stored in `row` before
the terminator, and the advanced cursor. -/
def parseRow (buf : List Char) (len : Int) : List Char × List Char :=
  parseRowLoop len buf true []

/-! ## atoi and parseFace (lines 92-114) -/

/-- Value of a run of decimal digits, most significant first. -/
def digitsValue (ds : List Char) : Nat :=
  ds.foldl (fun a d => 10 * a + (d.toNat - '0'.toNat)) 0

/-- The sign and digit part of `atoi`, after white space has been skipped. -/
def atoiSigned : List Char → Int
  | [] => 0
  | c :: cs =>
    if c = '-' then -((digitsValue (cs.takeWhile isdigit) : Nat) : Int)
    else if c = '+' then ((digitsValue (cs.takeWhile isdigit) : Nat) : Int)
    else ((digitsValue ((c :: cs).takeWhile isdigit) : Nat) : Int)

/-- The C library function `strtol` in base 10 with a 64-bit `long`: skip `isspace`
characters, read an optional sign and the longest run of digits; a value outside `long`
is replaced by `LONG_MIN` or `LONG_MAX`.  It never looks past a terminator, which is
neither space, sign nor digit. -/
def strtol (s : List Char) : Int :=
  max (-9223372036854775808) (min 9223372036854775807 (atoiSigned (s.dropWhile isspace)))

/-- Conversion of an integer to the 32-bit `int`: the value modulo `2^32` in
`[-2^31, 2^31)`. -/
def toInt32 (v : Int) : Int := (v + 2147483648) % 4294967296 - 2147483648

/-- The C library function `atoi` applied to the storage at a cursor, with the `int` result
line 109 keeps: `(int) strtol(s, 0, 10)`.  C leaves the result for digits beyond `int`
undefined; this is the behaviour of the GNU C library on a platform with 64-bit `long`,
where the conversion to `int` wraps. -/
def atoi (s : List Char) : Int := toInt32 (strtol s)

/-- Lines 98-99: skip blanks. -/
def skipBlank : List Char → List Char
  | [] => []
  | c :: cs => if c != NUL && (c == ' ' || c == '\t') then skipBlank cs else c :: cs

/-- Lines 102-106: advance over one token, overwriting every slash with a
terminator.  Returns the storage passed over (after the overwrites) and the
cursor where the scan stopped. -/
def scanToken : List Char → List Char × List Char
  | [] => ([], [])
  | c :: cs =>
    if c != NUL && c != ' ' && c != '\t' then
      ((if c = '/' then NUL else c) :: (scanToken cs).1, (scanToken cs).2)
    else ([], c :: cs)

/-- Line 110: a one-based or negative index made zero-based. -/
def resolve (vcnt : Int) (vi : Int) : Int := if vi < 0 then vi + vcnt else vi - 1

/-- The outer `while` loop of `parseFace`; `data` holds `data[0..j)`. -/
def parseFaceLoop (n vcnt : Int) : Nat → List Char → List Int → Option (List Int)
  | 0, _, _ => none
  | fuel + 1, row, data =>
    if atEnd row then some data
    else
      let row1 := skipBlank row
      let s := (scanToken row1).1 ++ (scanToken row1).2
      let row2 := (scanToken row1).2
      if atEnd s then parseFaceLoop n vcnt fuel row2 data
      else
        let data1 := data ++ [resolve vcnt (atoi s)]
        if (data1.length : Int) ≥ n then some data1
        else parseFaceLoop n vcnt fuel row2 data1

/-- Function `parseFace(row, data, n, vcnt)`: the contents of `data[0..j)` for the
returned `j`, which is the length of the list. -/
def parseFace (row : List Char) (n vcnt : Int) : Option (List Int) :=
  parseFaceLoop n vcnt (row.length + 1) row []

/-! ## Floats -/

/-- A `float`, held as its IEEE-754 binary32 bit pattern. -/
structure F32 where
  bits : Nat
  lt : bits < 4294967296
deriving DecidableEq

/-- The float with the given bit pattern (reduced to 32 bits). -/
def F32.ofBits (n : Nat) : F32 := ⟨n % 4294967296, Nat.mod_lt _ (by decide)⟩

/-- The constant `0.0f`, also the value `vector::resize` fills with. -/
def F32.zero : F32 := F32.ofBits 0

/-- The constant `1.0f`. -/
def F32.one : F32 := F32.ofBits 1065353216

/-- The constant `-1.0f`. -/
def F32.negOne : F32 := F32.ofBits 3212836864

/-- The bit pattern without the sign bit. -/
def F32.mag (x : F32) : Nat := x.bits % 2147483648

/-- The sign bit. -/
def F32.signBit (x : F32) : Bool := decide (2147483648 ≤ x.bits)

/-- The comparison `d > 0`: a positive number or plus infinity, never a NaN. -/
def F32.gtZero (x : F32) : Bool := decide (0 < x.bits ∧ x.bits ≤ 2139095040)

/-- The operations of `float` arithmetic that round, and the `%f` conversion
of `sscanf` (applied after white space has been skipped; it returns the value
and the rest of the input, or `none` on a matching failure). -/
structure FloatArith where
  add : F32 → F32 → F32
  sub : F32 → F32 → F32
  mul : F32 → F32 → F32
  div : F32 → F32 → F32
  sqrtf : F32 → F32
  scanFloat : List Char → Option (F32 × List Char)

/-! ### The binary32 instance -/

/-- Position of the highest set bit, by halving; the first argument bounds the
number of halvings. -/
def log2Aux : Nat → Nat → Nat
  | 0, _ => 0
  | k + 1, n => if n < 2 then 0 else log2Aux k (n / 2) + 1

/-- Floor of the binary logarithm (`0` at `0`). -/
def log2 (n : Nat) : Nat := log2Aux n n

/-- Magnitude bits of the float nearest to `num / den` (ties to even,
overflow to infinity). -/
def roundMag (num den : Nat) : Nat :=
  if num = 0 ∨ den = 0 then 0
  else
    let l : Int := (log2 num : Int) - (log2 den : Int)
    let ge : Bool :=
      if 0 ≤ l then decide (den * 2 ^ l.toNat ≤ num) else decide (den ≤ num * 2 ^ (-l).toNat)
    let e : Int := if ge then l else l - 1
    let q : Int := max (e - 23) (-149)
    let n1 : Nat := if 0 ≤ q then num else num * 2 ^ (-q).toNat
    let d1 : Nat := if 0 ≤ q then den * 2 ^ q.toNat else den
    let m : Nat := n1 / d1
    let r : Nat := n1 % d1
    let m1 : Nat := if d1 < 2 * r ∨ (2 * r = d1 ∧ m % 2 = 1) then m + 1 else m
    let b : Nat := (q + 149).toNat * 8388608 + m1
    if 2139095040 ≤ b then 2139095040 else b

/-- A float from a sign and magnitude bits. -/
def F32.mk2 (neg : Bool) (mag : Nat) : F32 :=
  F32.ofBits ((if neg then 2147483648 else 0) + mag % 2147483648)

/-- The canonical quiet NaN. -/
def F32.qNaN : F32 := F32.ofBits 2143289344

/-- Test for a NaN. -/
def F32.isNaN (x : F32) : Bool := decide (2139095040 < x.mag)

/-- Test for an infinity. -/
def F32.isInf (x : F32) : Bool := decide (x.mag = 2139095040)

/-- The magnitude of a finite float in units of `2^-149`. -/
def F32.scaledMag (x : F32) : Nat :=
  if x.mag / 8388608 = 0 then x.mag % 8388608
  else (8388608 + x.mag % 8388608) * 2 ^ (x.mag / 8388608 - 1)

/-- The value of a finite float in units of `2^-149`. -/
def F32.scaled (x : F32) : Int :=
  if x.signBit then -(x.scaledMag : Int) else (x.scaledMag : Int)

/-- Sign change. -/
def F32.neg (x : F32) : F32 := F32.mk2 (!x.signBit) x.mag

/-- IEEE-754 addition; every NaN result is the canonical quiet NaN. -/
def addF (x y : F32) : F32 :=
  if x.isNaN ∨ y.isNaN then F32.qNaN
  else if x.isInf then (if y.isInf ∧ x.signBit ≠ y.signBit then F32.qNaN else x)
  else if y.isInf then y
  else
    let s : Int := x.scaled + y.scaled
    if s = 0 then F32.mk2 (x.signBit && y.signBit) 0
    else F32.mk2 (decide (s < 0)) (roundMag s.natAbs (2 ^ 149))

/-- IEEE-754 subtraction. -/
def subF (x y : F32) : F32 := if y.isNaN then F32.qNaN else addF x y.neg

/-- IEEE-754 multiplication. -/
def mulF (x y : F32) : F32 :=
  if x.isNaN ∨ y.isNaN then F32.qNaN
  else if (x.isInf ∧ y.mag = 0) ∨ (y.isInf ∧ x.mag = 0) then F32.qNaN
  else if x.isInf ∨ y.isInf then F32.mk2 (xor x.signBit y.signBit) 2139095040
  else F32.mk2 (xor x.signBit y.signBit) (roundMag (x.scaledMag * y.scaledMag) (2 ^ 149 * 2 ^ 149))

/-- IEEE-754 division. -/
def divF (x y : F32) : F32 :=
  if x.isNaN ∨ y.isNaN then F32.qNaN
  else if (x.isInf ∧ y.isInf) ∨ (x.mag = 0 ∧ y.mag = 0) then F32.qNaN
  else if x.isInf ∨ y.mag = 0 then F32.mk2 (xor x.signBit y.signBit) 2139095040
  else if y.isInf then F32.mk2 (xor x.signBit y.signBit) 0
  else F32.mk2 (xor x.signBit y.signBit) (roundMag x.scaledMag y.scaledMag)

/-- Integer square root (floor), one bit at a time from bit `k` down. -/
def isqrtAux (n : Nat) : Nat → Nat → Nat
  | 0, r => r
  | k + 1, r => if (r + 2 ^ k) * (r + 2 ^ k) ≤ n then isqrtAux n k (r + 2 ^ k) else isqrtAux n k r

/-- Integer square root (floor). -/
def isqrt (n : Nat) : Nat := isqrtAux n (log2 n / 2 + 1) 0

/-- IEEE-754 square root.  The root of `N * 2^-149` is `sqrt (N * 2^81) * 2^-115`; an
inexact root is replaced by the midpoint of the two neighbouring integers, which rounds
the same way. -/
def sqrtF (x : F32) : F32 :=
  if x.isNaN then F32.qNaN
  else if x.mag = 0 then x
  else if x.signBit then F32.qNaN
  else if x.isInf then x
  else
    let n : Nat := x.scaledMag * 2 ^ 81
    let s : Nat := isqrt n
    if s * s = n then F32.mk2 false (roundMag s (2 ^ 115))
    else F32.mk2 false (roundMag (2 * s + 1) (2 ^ 116))

/-- Decimal exponent part of a float literal: the value and the rest, when
digits follow the exponent letter. -/
def scanExponent : List Char → Option (Int × List Char)
  | [] => none
  | c :: cs =>
    if c = 'e' ∨ c = 'E' then
      let neg : Bool := decide (cs.head? = some '-')
      let ds : List Char := if cs.head? = some '-' ∨ cs.head? = some '+' then cs.drop 1 else cs
      let digs : List Char := ds.takeWhile isdigit
      if digs = [] then none
      else some (if neg then -((digitsValue digs : Nat) : Int) else ((digitsValue digs : Nat) : Int),
                 ds.dropWhile isdigit)
    else none

/-- The `%f` conversion for decimal literals `[sign] digits [. digits] [e [sign] digits]`,
correctly rounded.  An exponent letter with no digits after it is a matching failure (the
input item rule of the C standard); the spellings of infinities, NaNs and hexadecimal
literals are not covered and fail to match. -/
def scanFloatDec (s : List Char) : Option (F32 × List Char) :=
  let neg : Bool := decide (s.head? = some '-')
  let s1 : List Char := if s.head? = some '-' ∨ s.head? = some '+' then s.drop 1 else s
  let ip : List Char := s1.takeWhile isdigit
  let s2 : List Char := s1.dropWhile isdigit
  let fp : List Char := if s2.head? = some '.' then (s2.drop 1).takeWhile isdigit else []
  let s3 : List Char := if s2.head? = some '.' then (s2.drop 1).dropWhile isdigit else s2
  if ip = [] ∧ fp = [] then none
  else
    let d : Nat := digitsValue (ip ++ fp)
    let hasExp : Bool := decide (s3.head? = some 'e' ∨ s3.head? = some 'E')
    match hasExp, scanExponent s3 with
    | true, none => none
    | _, r =>
      let e10 : Int := (r.map Prod.fst).getD 0 - (fp.length : Int)
      let rest : List Char := (r.map Prod.snd).getD s3
      let mag : Nat := if 0 ≤ e10 then roundMag (d * 10 ^ e10.toNat) 1 else roundMag d (10 ^ (-e10).toNat)
      some (F32.mk2 neg mag, rest)

/-- IEEE-754 binary32 arithmetic, round to nearest even. -/
def binary32 : FloatArith where
  add := addF
  sub := subF
  mul := mulF
  div := divF
  sqrtf := sqrtF
  scanFloat := scanFloatDec

/-! ## The mesh (class `rcMeshLoaderObj`) -/

/-- The data members of `rcMeshLoaderObj`. -/
structure Mesh where
  m_filename : String
  m_scale : F32
  m_verts : List F32
  m_tris : List Int
  m_normals : List F32
  m_vertCount : Int
  m_triCount : Int
deriving DecidableEq

/-- The constructor (lines 26-34). -/
def Mesh.new : Mesh :=
  { m_filename := "", m_scale := F32.one, m_verts := [], m_tris := [], m_normals := [],
    m_vertCount := 0, m_triCount := 0 }

/-- Method `addVertex` (lines 40-46). -/
def addVertex (x y z : F32) (m : Mesh) : Mesh :=
  { m with m_verts := m.m_verts ++ [x, y, z], m_vertCount := m.m_vertCount + 1 }

/-- Method `addTriangle` (lines 48-54). -/
def addTriangle (a b c : Int) (m : Mesh) : Mesh :=
  { m with m_tris := m.m_tris ++ [a, b, c], m_triCount := m.m_triCount + 1 }

/-! ## load: the parse pass (lines 153-189) -/

/-- The character `row[i]` of a row whose stored characters are `row`: the terminator
stands right after them. -/
def rowAt (row : List Char) (i : Nat) : Char := row.getD i NUL

/-- The call `sscanf(s, "%f %f %f", &x, &y, &z)`: each conversion skips white space
first; the first matching failure (or the end of the string) ends the call and
leaves the remaining variables as they were. -/
def sscanf3 (A : FloatArith) (s : List Char) (x y z : F32) : F32 × F32 × F32 :=
  match A.scanFloat ((cstr s).dropWhile isspace) with
  | none => (x, y, z)
  | some (vx, r1) =>
    match A.scanFloat (r1.dropWhile isspace) with
    | none => (vx, y, z)
    | some (vy, r2) =>
      match A.scanFloat (r2.dropWhile isspace) with
      | none => (vx, vy, z)
      | some (vz, _) => (vx, vy, vz)

/-- One candidate of the fan (lines 181-186): the triangle is added unless one of its
indices is outside `[0, m_vertCount)`. -/
def fanStep (face : List Int) (i : Nat) (m : Mesh) : Mesh :=
  let a := face.getD 0 0
  let b := face.getD (i - 1) 0
  let c := face.getD i 0
  if a < 0 ∨ a ≥ m.m_vertCount ∨ b < 0 ∨ b ≥ m.m_vertCount ∨ c < 0 ∨ c ≥ m.m_vertCount then m
  else addTriangle a b c m

/-- The loop `for (i = ...; i < nv; ++i)` of lines 179-187 with `k = nv - i` iterations left. -/
def fanLoop (face : List Int) : Nat → Nat → Mesh → Mesh
  | 0, _, m => m
  | k + 1, i, m => fanLoop face k (i + 1) (fanStep face i m)

/-- The variables of `load` that live across rows: the mesh and the scanned `x`, `y`, `z`. -/
structure LoadState where
  mesh : Mesh
  x : F32
  y : F32
  z : F32
deriving DecidableEq

/-- The face branch of the loop body (lines 175-188). -/
def loadFace (row : List Char) (m : Mesh) : Option Mesh :=
  match parseFace (row.drop 1) 32 m.m_vertCount with
  | none => none
  | some face => some (fanLoop face (face.length - 2) 2 m)

/-- The vertex branch of the loop body (lines 169-174). -/
def loadVertex (A : FloatArith) (row : List Char) (st : LoadState) : LoadState :=
  if rowAt row 0 = 'v' ∧ rowAt row 1 ≠ 'n' ∧ rowAt row 1 ≠ 't' then
    let r := sscanf3 A (row.drop 1) st.x st.y st.z
    { mesh := addVertex r.1 r.2.1 r.2.2 st.mesh, x := r.1, y := r.2.1, z := r.2.2 }
  else st

/-- The loop body after `parseRow` (lines 167-188) for the stored characters `row`. -/
def loadRow (A : FloatArith) (row : List Char) (st : LoadState) : Option LoadState :=
  if rowAt row 0 = '#' then some st
  else
    let st1 := loadVertex A row st
    if rowAt row 0 = 'f' then
      match loadFace row st1.mesh with
      | none => none
      | some m => some { st1 with mesh := m }
    else some st1

/-- The loop `while (src < srcEnd)` of lines 162-189. -/
def loadLoop (A : FloatArith) : Nat → List Char → LoadState → Option LoadState
  | _, [], st => some st
  | 0, _ :: _, _ => none
  | fuel + 1, c :: cs, st =>
    match loadRow A (parseRow (c :: cs) 512).1 st with
    | none => none
    | some st1 => loadLoop A fuel (parseRow (c :: cs) 512).2 st1

/-- The parse pass of `load` on the buffer `buf`. -/
def loadParse (A : FloatArith) (buf : List Char) (st : LoadState) : Option LoadState :=
  loadLoop A buf.length buf st

/-! ## load: normals (lines 193-218) -/

/-- Method `vector::resize(n)` with value-initialised new elements. -/
def resize (l : List F32) (n : Nat) : List F32 :=
  l.take n ++ List.replicate (n - l.length) F32.zero

/-- The read `p[j]` for `p = &m_verts[t*3]`; `none` when outside the array. -/
def vertAt (m : Mesh) (t : Int) (j : Nat) : Option F32 :=
  if t < 0 then none else m.m_verts[(t * 3).toNat + j]?

/-- The three coordinates of the vertex `t`. -/
def vert3 (m : Mesh) (t : Int) : Option (F32 × F32 × F32) :=
  match vertAt m t 0, vertAt m t 1, vertAt m t 2 with
  | some a, some b, some c => some (a, b, c)
  | _, _, _ => none

/-- Lines 200-217: the normal of the triangle with corners `v0`, `v1`, `v2`. -/
def faceNormal (A : FloatArith) (v0 v1 v2 : F32 × F32 × F32) : F32 × F32 × F32 :=
  let e00 := A.sub v1.1 v0.1
  let e10 := A.sub v2.1 v0.1
  let e01 := A.sub v1.2.1 v0.2.1
  let e11 := A.sub v2.2.1 v0.2.1
  let e02 := A.sub v1.2.2 v0.2.2
  let e12 := A.sub v2.2.2 v0.2.2
  let n0 := A.sub (A.mul e01 e12) (A.mul e02 e11)
  let n1 := A.sub (A.mul e02 e10) (A.mul e00 e12)
  let n2 := A.sub (A.mul e00 e11) (A.mul e01 e10)
  let d := A.sqrtf (A.add (A.add (A.mul n0 n0) (A.mul n1 n1)) (A.mul n2 n2))
  if d.gtZero then
    let d1 := A.div F32.one d
    (A.mul n0 d1, A.mul n1 d1, A.mul n2 d1)
  else (n0, n1, n2)

/-- One iteration of the loop of lines 195-218 at index `i`; `none` when a read of
`m_tris` or `m_verts` is out of bounds. -/
def normalStep (A : FloatArith) (i : Nat) (m : Mesh) : Option Mesh :=
  match m.m_tris[i]?, m.m_tris[i + 1]?, m.m_tris[i + 2]? with
  | some t0, some t1, some t2 =>
    match vert3 m t0, vert3 m t1, vert3 m t2 with
    | some v0, some v1, some v2 =>
      let n := faceNormal A v0 v1 v2
      some { m with m_normals := ((m.m_normals.set i n.1).set (i + 1) n.2.1).set (i + 2) n.2.2 }
    | _, _, _ => none
  | _, _, _ => none

/-- The loop `for (i = ...; i < m_triCount*3; i += 3)` with `k` iterations left. -/
def normalLoop (A : FloatArith) : Nat → Nat → Mesh → Option Mesh
  | 0, _, m => some m
  | k + 1, i, m =>
    match normalStep A i m with
    | none => none
    | some m1 => normalLoop A k (i + 3) m1

/-- Lines 193-218; `none` when `resize` is asked for a negative size or a read is out
of bounds. -/
def calcNormals (A : FloatArith) (m : Mesh) : Option Mesh :=
  if m.m_triCount < 0 then none
  else normalLoop A m.m_triCount.toNat 0
    { m with m_normals := resize m.m_normals (m.m_triCount * 3).toNat }

/-- Lines 153-220 of `load`: parse the buffer, compute the normals, record the file name.
The argument `st` carries the mesh and the (indeterminate) initial `x`, `y`, `z`. -/
def loadBuffer (A : FloatArith) (filename : String) (buf : List Char) (st : LoadState) :
    Option Mesh :=
  match loadParse A buf st with
  | none => none
  | some st1 =>
    match calcNormals A st1.mesh with
    | none => none
    | some m => some { m with m_filename := filename }

/-! ## The binary cache (lines 222-258 and 358-427) -/

/-- The files that can be opened for reading, by name, with their bytes. -/
abbrev FileSys := String → Option (List Nat)

/-- The effect of writing a whole file. -/
def FileSys.write (fs : FileSys) (name : String) (bytes : List Nat) : FileSys :=
  fun n => if n = name then some bytes else fs n

/-- The four bytes of a 32-bit pattern, least significant first. -/
def le32 (n : Nat) : List Nat :=
  [n % 256, n / 256 % 256, n / 65536 % 256, n / 16777216 % 256]

/-- The 32-bit pattern stored in up to four bytes, least significant first; a byte
that is missing is read as zero, the content of the freshly sized destination. -/
def ofLe32 (b : List Nat) : Nat :=
  b.getD 0 0 % 256 + 256 * (b.getD 1 0 % 256) + 65536 * (b.getD 2 0 % 256)
    + 16777216 * (b.getD 3 0 % 256)

/-- The two's complement pattern of an `int`. -/
def intBits (i : Int) : Nat := (i % 4294967296).toNat

/-- The `int` with a given 32-bit pattern. -/
def bitsInt (n : Nat) : Int :=
  if n % 4294967296 < 2147483648 then ((n % 4294967296 : Nat) : Int)
  else ((n % 4294967296 : Nat) : Int) - 4294967296

/-- The bytes `fwrite` emits for `cnt` elements of an `int` array; `none` when the array
holds fewer (the read would leave the array).  The address `&v[0]` of an empty vector is
taken to be usable for a transfer of no element. -/
def fwriteInts (l : List Int) (cnt : Int) : Option (List Nat) :=
  if 0 ≤ cnt ∧ cnt.toNat ≤ l.length then
    some ((l.take cnt.toNat).flatMap (fun i => le32 (intBits i)))
  else none

/-- The bytes `fwrite` emits for `cnt` elements of a `float` array. -/
def fwriteFloats (l : List F32) (cnt : Int) : Option (List Nat) :=
  if 0 ≤ cnt ∧ cnt.toNat ≤ l.length then
    some ((l.take cnt.toNat).flatMap (fun x => le32 x.bits))
  else none

/-- Content of the `.vertices` file (lines 233-234). -/
def verticesFile (m : Mesh) : Option (List Nat) :=
  (fwriteFloats m.m_verts (3 * m.m_vertCount)).map (fun b => le32 (intBits m.m_vertCount) ++ b)

/-- Content of the `.indices` file (lines 243-244). -/
def indicesFile (m : Mesh) : Option (List Nat) :=
  (fwriteInts m.m_tris (3 * m.m_triCount)).map (fun b => le32 (intBits m.m_triCount) ++ b)

/-- Content of the `.normals` file (lines 253-256). -/
def normalsFile (m : Mesh) : Option (List Nat) :=
  (fwriteFloats m.m_normals (m.m_triCount * 3)).map
    (fun b => le32 (intBits (m.m_triCount * 3)) ++ b)

/-- The writes of the save path (lines 224-258).  The predicate `canWrite` tells which
files `fopen(.., "wb")` can open.  The result is the value returned on an early exit
(`true` stands for reaching line 260) and the files afterwards; `none` when an `fwrite`
reads outside its array. -/
def savePath (canWrite : String → Bool) (filename : String) (m : Mesh) (fs : FileSys) :
    Option (Bool × FileSys) :=
  if canWrite (filename ++ ".vertices") = false then some (false, fs)
  else
    match verticesFile m with
    | none => none
    | some bv =>
      let fs1 := fs.write (filename ++ ".vertices") bv
      if canWrite (filename ++ ".indices") = false then some (false, fs1)
      else
        match indicesFile m with
        | none => none
        | some bi =>
          let fs2 := fs1.write (filename ++ ".indices") bi
          if canWrite (filename ++ ".normals") = false then some (false, fs2)
          else
            match normalsFile m with
            | none => none
            | some bn => some (true, fs2.write (filename ++ ".normals") bn)

/-- The call `fread(&count, sizeof(int), 1, fp)` on a variable initialised to `0`, at the
start of a file.  The result of `fread` is not looked at: a short file leaves the bytes
it does not have at zero. -/
def freadCount (file : List Nat) : Int := bitsInt (ofLe32 (file.take 4))

/-- The `n` 32-bit elements `fread` leaves in a destination of `n` zeroed elements when
given the bytes `bs`. -/
def freadWords : Nat → List Nat → List Nat
  | 0, _ => []
  | n + 1, bs => ofLe32 (bs.take 4) :: freadWords n (bs.drop 4)

/-- Lines 372-378 and 393-399: the count and the array a record file yields; `none` when
`count * 3` is negative (`resize` throws) or beyond `int` (undefined). -/
def readRecords (file : List Nat) : Option (Int × List Nat) :=
  let count := freadCount file
  if 0 ≤ count ∧ count * 3 < 2147483648 then
    some (count, freadWords (count * 3).toNat (file.drop 4))
  else none

/-- Lines 414-419: the array the normals file yields; `none` when the count is negative. -/
def readScalars (file : List Nat) : Option (List Nat) :=
  let count := freadCount file
  if 0 ≤ count then some (freadWords count.toNat (file.drop 4)) else none

/-- Method `loadBinary` (lines 358-427): the returned flag and the mesh afterwards; `none`
when the call does not return normally. -/
def loadBinary (fs : FileSys) (fileName : String) (m : Mesh) : Option (Bool × Mesh) :=
  match fs (fileName ++ ".vertices") with
  | none => some (false, m)
  | some fv =>
    match readRecords fv with
    | none => none
    | some (vertCount, ve) =>
      let m1 := { m with m_vertCount := vertCount, m_verts := ve.map F32.ofBits }
      match fs (fileName ++ ".indices") with
      | none => some (false, m1)
      | some fi =>
        match readRecords fi with
        | none => none
        | some (triCount, ind) =>
          let m2 := { m1 with m_triCount := triCount, m_tris := ind.map bitsInt }
          match fs (fileName ++ ".normals") with
          | none => some (false, m2)
          | some fn =>
            match readScalars fn with
            | none => none
            | some no => some (true, { m2 with m_normals := no.map F32.ofBits })

/-! ## Reference definitions used to state the properties -/

/-- The loop condition of lines 102: the character belongs to a token. -/
def isTok (c : Char) : Bool := c != NUL && c != ' ' && c != '\t'

/-- The blank-separated tokens of the C string at `row`, in row order. -/
def rowTokens (row : List Char) : List (List Char) :=
  ((cstr row).splitOnP isBlank).filter (fun t => !t.isEmpty)

/-- A token cut at its first slash. -/
def cutSlash (t : List Char) : List Char := t.takeWhile (fun c => c != '/')

/-- The tokens of a face row that are non-empty after the cut at the first slash. -/
def faceTokens (row : List Char) : List (List Char) :=
  ((rowTokens row).map cutSlash).filter (fun t => !t.isEmpty)

/-- The reference result of `parseFace`: the first `n` face tokens, converted and resolved. -/
def parseFaceRef (row : List Char) (n vcnt : Int) : List Int :=
  ((faceTokens row).take n.toNat).map (fun t => resolve vcnt (atoi t))

/-- Every token of the row that has no slash holds a character that is not C white
space (it is not made of vertical tabs, form feeds, line feeds and carriage returns
only), so that `atoi` stops inside the token. -/
def TokensConvertible (row : List Char) : Prop :=
  ∀ t ∈ rowTokens row, cutSlash t = t → ∃ c ∈ t, isspace c = false

/-- Decimal spelling of a natural number (no digit at all for `0`). -/
def decimal (k : Nat) : List Char :=
  (Nat.digits 10 k).reverse.map (fun d => Char.ofNat (d + 48))

/-- The candidate triangle of the fan at index `i`. -/
def fanCandidate (face : List Int) (i : Nat) : Int × Int × Int :=
  (face.getD 0 0, face.getD (i - 1) 0, face.getD i 0)

/-- The candidates of the fan of a face, for `i = 2 .. nv-1` in order. -/
def fanCandidates (face : List Int) : List (Int × Int × Int) :=
  (List.range (face.length - 2)).map (fun k => fanCandidate face (k + 2))

/-- All three indices of a triangle lie in `[0, vc)`. -/
def triInRange (vc : Int) (t : Int × Int × Int) : Bool :=
  decide (0 ≤ t.1 ∧ t.1 < vc ∧ 0 ≤ t.2.1 ∧ t.2.1 < vc ∧ 0 ≤ t.2.2 ∧ t.2.2 < vc)

/-- The three indices of a triangle as they are stored in `m_tris`. -/
def triFlat (t : Int × Int × Int) : List Int := [t.1, t.2.1, t.2.2]

/-- Every entry of the triangle index list lies in `[0, m_vertCount)`. -/
def TrisInRange (m : Mesh) : Prop := ∀ t ∈ m.m_tris, 0 ≤ t ∧ t < m.m_vertCount

/-- The counts of vertices and triangles agree with the lengths of their arrays. -/
def CountsMatch (m : Mesh) : Prop :=
  (m.m_verts.length : Int) = 3 * m.m_vertCount ∧ (m.m_tris.length : Int) = 3 * m.m_triCount

/-- The counts agree with the lengths of all three arrays. -/
def Consistent (m : Mesh) : Prop :=
  CountsMatch m ∧ (m.m_normals.length : Int) = 3 * m.m_triCount

/-! ## Concrete inputs -/

/-- A face row with 33 tokens `1`. -/
def rowOnes : List Char := (List.replicate 33 [' ', '1']).flatten

/-- A mesh holding the single vertex `(0, 0, 0)`. -/
def meshOne : Mesh := addVertex F32.zero F32.zero F32.zero Mesh.new

/-- A face row holding a vertical tab as a token of its own, then the token `5`. -/
def rowVtab : List Char := [' ', Char.ofNat 11, ' ', '5']

/-- The face row ` 1/7/9 2/8 3//4 -1 /5`. -/
def rowSlashes : List Char :=
  [' ', '1', '/', '7', '/', '9', ' ', '2', '/', '8', ' ', '3', '/', '/', '4', ' ', '-', '1',
   ' ', '/', '5']

/-- The state of `load` on a fresh mesh, with `x`, `y`, `z` at zero. -/
def freshState : LoadState := { mesh := Mesh.new, x := F32.zero, y := F32.zero, z := F32.zero }

/-- The five lines `v 0 0 0`, `v 1 0 0`, `v 0 1 0`, `v 1 1 0`, `f 1 2 3 4`. -/
def quadText : List Char := "v 0 0 0\nv 1 0 0\nv 0 1 0\nv 1 1 0\nf 1 2 3 4".toList

/-- Cache files in which the vertices file declares one vertex and holds no payload. -/
def shortCache : FileSys := fun n =>
  if n = "m.vertices" then some [1, 0, 0, 0]
  else if n = "m.indices" then some [0, 0, 0, 0]
  else if n = "m.normals" then some [0, 0, 0, 0]
  else none

/-- A cache of which only the vertices file exists; it holds the vertex `(1, 1, 1)`. -/
def verticesOnlyCache : FileSys := fun n =>
  if n = "m.vertices" then some [1, 0, 0, 0, 0, 0, 128, 63, 0, 0, 128, 63, 0, 0, 128, 63]
  else none

/-- No file at all. -/
def emptyFileSys : FileSys := fun _ => none

/-- The mesh after the parse pass on `quadText`. -/
def quadParsed : Mesh :=
  { m_filename := ""
    m_scale := F32.one
    m_verts := [F32.zero, F32.zero, F32.zero, F32.one, F32.zero, F32.zero,
                F32.zero, F32.one, F32.zero, F32.one, F32.one, F32.zero]
    m_tris := [0, 1, 2, 0, 2, 3]
    m_normals := []
    m_vertCount := 4
    m_triCount := 2 }

/-- The mesh `load` leaves for `quadText` read from the file `quad.obj`: the normals are
`(0, 0, 1)` and `(0, 0, -1)`. -/
def quadMesh : Mesh :=
  { quadParsed with
    m_filename := "quad.obj"
    m_normals := [F32.zero, F32.zero, F32.one, F32.zero, F32.zero, F32.negOne] }

/-! ## Reference definitions for parseRow, the rows of a buffer, the normals and `load` -/

/-- The characters `parseRow` never copies: the backslash and the carriage return. -/
def isDropped (c : Char) : Bool := c == '\\' || c == '\r'

/-- The characters `parseRow` skips while nothing has been copied, besides the dropped
ones: the space, the tab and the line feed. -/
def isLead (c : Char) : Bool := c == ' ' || c == '\t' || c == '\n'

/-- The reference for the row `parseRow` produces: delete every backslash and carriage
return, drop the leading run of spaces, tabs and line feeds, keep the characters before the
first remaining line feed, cut to `len - 1` characters. -/
def parseRowRef (buf : List Char) (len : Int) : List Char :=
  ((((buf.filter (fun c => !isDropped c)).dropWhile isLead).takeWhile
    (fun c => c != '\n'))).take (len - 1).toNat

/-- The rows of a buffer in order: the characters stored by the successive calls of
`parseRow` in the loop of lines 162-189 (the first argument bounds their number). -/
def rowsLoop : Nat → List Char → List (List Char)
  | _, [] => []
  | 0, _ :: _ => []
  | fuel + 1, c :: cs => (parseRow (c :: cs) 512).1 :: rowsLoop fuel (parseRow (c :: cs) 512).2

/-- The rows of a buffer. -/
def rowsOf (buf : List Char) : List (List Char) := rowsLoop buf.length buf

/-- The test of line 169: the row is a vertex position row. -/
def isVertexRow (row : List Char) : Bool :=
  rowAt row 0 == 'v' && rowAt row 1 != 'n' && rowAt row 1 != 't'

/-- The normal the loop of lines 195-218 computes at index `i`: read the three indices at
`m_tris[i..i+2]`, the three vertices, and apply lines 200-217; `none` when a read is out of
bounds. -/
def normalAt (A : FloatArith) (m : Mesh) (i : Nat) : Option (F32 × F32 × F32) :=
  match m.m_tris[i]?, m.m_tris[i + 1]?, m.m_tris[i + 2]? with
  | some t0, some t1, some t2 =>
    match vert3 m t0, vert3 m t1, vert3 m t2 with
    | some v0, some v1, some v2 => some (faceNormal A v0 v1 v2)
    | _, _, _ => none
  | _, _, _ => none

/-- One record file of the read-back comparison (lines 263-321): `some false` when the
file cannot be opened, `some true` when the array read back equals the expected 32-bit
patterns, `none` when the sizes or the bytes differ (the debugger trap) or the read does not
return normally. -/
def verifyRecords (file : Option (List Nat)) (expected : List Nat) : Option Bool :=
  match file with
  | none => some false
  | some f =>
    match readRecords f with
    | none => none
    | some (_, arr) => if arr = expected then some true else none

/-- The normals file of the read-back comparison (lines 323-351). -/
def verifyScalars (file : Option (List Nat)) (expected : List Nat) : Option Bool :=
  match file with
  | none => some false
  | some f =>
    match readScalars f with
    | none => none
    | some arr => if arr = expected then some true else none

/-- The read-back comparison of lines 260-352: the value `load` goes on with (`some false`
is the early `return false`). -/
def verifyPath (fs : FileSys) (filename : String) (m : Mesh) : Option Bool :=
  match verifyRecords (fs (filename ++ ".vertices")) (m.m_verts.map F32.bits) with
  | none => none
  | some false => some false
  | some true =>
    match verifyRecords (fs (filename ++ ".indices")) (m.m_tris.map intBits) with
    | none => none
    | some false => some false
    | some true => verifyScalars (fs (filename ++ ".normals")) (m.m_normals.map F32.bits)

/-- Method `load` (lines 116-356).  The argument `file` is the content of the source file
(`none` when it cannot be opened, sized or read); `canWrite` tells which files can be opened
for writing.  An empty file is refused like one that cannot be read: `fread(buf, 0, 1, fp)`
transfers no element, so that `readLen != 1` at line 147.  The result is the returned
flag, the mesh and the files afterwards; `none` when the call does not return normally. -/
def load (A : FloatArith) (canWrite : String → Bool) (file : Option (List Char))
    (filename : String) (saveAsBinary : Bool) (st : LoadState) (fs : FileSys) :
    Option (Bool × Mesh × FileSys) :=
  match file with
  | none => some (false, st.mesh, fs)
  | some buf =>
    if buf = [] then some (false, st.mesh, fs)
    else
      match loadBuffer A filename buf st with
      | none => none
      | some m =>
        if saveAsBinary then
          match savePath canWrite filename m fs with
          | none => none
          | some (false, fs1) => some (false, m, fs1)
          | some (true, fs1) =>
            match verifyPath fs1 filename m with
            | none => none
            | some ok => some (ok, m, fs1)
        else some (true, m, fs)

/-- Three cache files, each of the length its count announces, that do not belong
together: one vertex, one triangle `(0, 1, 5)`, no normal. -/
def mismatchedCache : FileSys := fun n =>
  if n = "m.vertices" then some [1, 0, 0, 0, 0, 0, 0, 0, 0, 0, 0, 0, 0, 0, 0, 0]
  else if n = "m.indices" then some [1, 0, 0, 0, 0, 0, 0, 0, 1, 0, 0, 0, 5, 0, 0, 0]
  else if n = "m.normals" then some [0, 0, 0, 0]
  else none

/-! ## More concrete inputs; rows cut at the slashes -/

/-- A buffer whose only line is a comment of 510 characters `x` after the `#`, followed on
the same line by `v`. -/
def longComment : List Char := '#' :: (List.replicate 510 'x' ++ ['v', '\n'])

/-- The row with every token cut at its first slash: inside a token the characters from
the first slash on are left out (`dropping` tells that the slash of the current token has
been passed); blanks are kept. -/
def cutRowAux : Bool → List Char → List Char
  | _, [] => []
  | dropping, c :: cs =>
    if isBlank c then c :: cutRowAux false cs
    else if dropping then cutRowAux true cs
    else if c = '/' then cutRowAux true cs
    else c :: cutRowAux false cs

/-- The C string at `row` with every token cut at its first slash. -/
def cutRow (row : List Char) : List Char := cutRowAux false (cstr row)

/-- A face row whose first token is a vertical tab followed by `/3`. -/
def rowVtabSlash : List Char := [' ', Char.ofNat 11, '/', '3', ' ', '5']

/-- A cache without normals file: the vertices file holds the vertex `(1, 1, 1)`, the
indices file the triangle `(0, 0, 0)`. -/
def noNormalsCache : FileSys := fun n =>
  if n = "m.vertices" then some [1, 0, 0, 0, 0, 0, 128, 63, 0, 0, 128, 63, 0, 0, 128, 63]
  else if n = "m.indices" then some [1, 0, 0, 0, 0, 0, 0, 0, 0, 0, 0, 0, 0, 0, 0, 0]
  else none

/-- The mesh `loadBinary` leaves on the quad mesh when the normals file is missing. -/
def quadHalfLoaded : Mesh :=
  { quadMesh with
    m_vertCount := 1
    m_verts := [F32.one, F32.one, F32.one]
    m_triCount := 1
    m_tris := [0, 0, 0] }

/-! ## Lemmas on atoi -/

theorem takeWhile_append_stop {p : Char → Bool} (a : List Char) (d : Char) (x : List Char)
    (hd : p d = false) : (a ++ d :: x).takeWhile p = a.takeWhile p := by
  induction a with
  | nil => simp [List.takeWhile_cons, hd]
  | cons c a ih => simp [List.takeWhile_cons, ih]

theorem atoiSigned_append_stop (b : List Char) (d : Char) (x : List Char)
    (hd : isdigit d = false) (hm : d ≠ '-') (hp : d ≠ '+') :
    atoiSigned (b ++ d :: x) = atoiSigned b := by
  cases b with
  | nil => simp [atoiSigned, hm, hp, List.takeWhile_cons, hd, digitsValue]
  | cons c b =>
    simp only [List.cons_append, atoiSigned]
    rw [takeWhile_append_stop b d x hd, ← List.cons_append, takeWhile_append_stop (c :: b) d x hd]

theorem dropWhile_isspace_append (a : List Char) (d : Char) (x : List Char)
    (h : isspace d = false ∨ ∃ c ∈ a, isspace c = false) :
    (a ++ d :: x).dropWhile isspace = a.dropWhile isspace ++ d :: x := by
  induction a with
  | nil =>
    rcases h with h | ⟨c, hc, _⟩
    · simp [List.dropWhile_cons, h]
    · simp at hc
  | cons c a ih =>
    by_cases hc : isspace c = true
    · have : isspace d = false ∨ ∃ c ∈ a, isspace c = false := by
        rcases h with h | ⟨e, he, hs⟩
        · exact Or.inl h
        · rcases List.mem_cons.1 he with rfl | he
          · rw [hc] at hs; cases hs
          · exact Or.inr ⟨e, he, hs⟩
      simp [List.dropWhile_cons, hc, ih this]
    · simp [List.dropWhile_cons, hc]

theorem atoi_append_stop (a : List Char) (d : Char) (x : List Char)
    (hd : isdigit d = false) (hm : d ≠ '-') (hp : d ≠ '+')
    (h : isspace d = false ∨ ∃ c ∈ a, isspace c = false) :
    atoi (a ++ d :: x) = atoi a := by
  unfold atoi strtol
  rw [dropWhile_isspace_append a d x h, atoiSigned_append_stop _ d x hd hm hp]

theorem toInt32_range (v : Int) : -2147483648 ≤ toInt32 v ∧ toInt32 v < 2147483648 := by
  unfold toInt32
  have h1 := Int.emod_nonneg (v + 2147483648) (by decide : (4294967296 : Int) ≠ 0)
  have h2 := Int.emod_lt_of_pos (v + 2147483648) (by decide : (0 : Int) < 4294967296)
  omega

theorem atoi_of_all_space (a : List Char) (h : ∀ c ∈ a, isspace c = true) : atoi a = 0 := by
  unfold atoi strtol
  have : a.dropWhile isspace = [] := by
    induction a with
    | nil => rfl
    | cons c a ih =>
      simp [List.dropWhile_cons, h c (List.mem_cons_self _ _)]
      exact fun e he => by simpa using h e (List.mem_cons_of_mem _ he)
  rw [this]; rfl

/-! ## Lemmas on the scanning loops of parseFace -/

theorem atEnd_eq_false_iff (row : List Char) :
    atEnd row = false ↔ ∃ c cs, row = c :: cs ∧ c ≠ NUL := by
  cases row with
  | nil => simp [atEnd]
  | cons c cs => simp [atEnd]

theorem cstr_of_atEnd (row : List Char) (h : atEnd row = true) : cstr row = [] := by
  cases row with
  | nil => rfl
  | cons c cs =>
    have : c = NUL := by simpa [atEnd] using h
    simp [cstr, List.takeWhile_cons, this]

theorem rowTokens_of_atEnd (row : List Char) (h : atEnd row = true) : rowTokens row = [] := by
  simp [rowTokens, cstr_of_atEnd row h]

theorem rowTokens_blank (c : Char) (cs : List Char) (hc : c ≠ NUL) (hb : isBlank c = true) :
    rowTokens (c :: cs) = rowTokens cs := by
  simp [rowTokens, cstr, List.takeWhile_cons, hc, hb]

theorem skipBlank_length_le (row : List Char) : (skipBlank row).length ≤ row.length := by
  induction row with
  | nil => simp [skipBlank]
  | cons c cs ih =>
    unfold skipBlank
    split
    · simp; omega
    · simp

theorem rowTokens_skipBlank (row : List Char) : rowTokens (skipBlank row) = rowTokens row := by
  induction row with
  | nil => rfl
  | cons c cs ih =>
    unfold skipBlank
    split
    · rename_i h
      simp only [Bool.and_eq_true, bne_iff_ne, ne_eq, Bool.or_eq_true, beq_iff_eq] at h
      rw [ih, rowTokens_blank c cs h.1 (by simpa [isBlank] using h.2)]
    · rfl

/-- After the blanks have been skipped the cursor is at the end or at a token character. -/
theorem skipBlank_head (row : List Char) :
    atEnd (skipBlank row) = true ∨ ∃ c cs, skipBlank row = c :: cs ∧ isTok c = true := by
  induction row with
  | nil => left; rfl
  | cons c cs ih =>
    unfold skipBlank
    split
    · exact ih
    · rename_i h
      by_cases hc : c = NUL
      · left; simp [atEnd, hc]
      · right
        refine ⟨c, cs, rfl, ?_⟩
        simp only [Bool.and_eq_true, bne_iff_ne, ne_eq, Bool.or_eq_true, beq_iff_eq, not_and,
          not_or] at h
        have := h hc
        simp [isTok, hc, this.1, this.2]

theorem skipBlank_of_atEnd_false (row : List Char) (h : atEnd row = false)
    (h2 : atEnd (skipBlank row) = true) : (skipBlank row).length < row.length := by
  cases row with
  | nil => simp [atEnd] at h
  | cons c cs =>
    have hc : c ≠ NUL := by simpa [atEnd] using h
    unfold skipBlank at h2 ⊢
    split
    · have := skipBlank_length_le cs
      simp; omega
    · rename_i h3
      rw [if_neg h3] at h2
      simp [atEnd, hc] at h2

theorem scanToken_length_le (row : List Char) : (scanToken row).2.length ≤ row.length := by
  induction row with
  | nil => simp [scanToken]
  | cons c cs ih =>
    unfold scanToken
    split
    · simp; omega
    · simp

theorem scanToken_length_lt (c : Char) (cs : List Char) (h : isTok c = true) :
    (scanToken (c :: cs)).2.length < (c :: cs).length := by
  unfold scanToken
  have h1 : (c != NUL && c != ' ' && c != '\t') = true := h
  rw [if_pos h1]
  have := scanToken_length_le cs
  simp; omega

theorem scanToken_of_atEnd (row : List Char) (h : atEnd row = true) :
    scanToken row = ([], row) := by
  cases row with
  | nil => rfl
  | cons c cs =>
    have : c = NUL := by simpa [atEnd] using h
    subst this
    rfl

/-- Every iteration of the outer loop of `parseFace` moves the cursor forward. -/
theorem parseFace_step_lt (row : List Char) (h : atEnd row = false) :
    (scanToken (skipBlank row)).2.length < row.length := by
  rcases skipBlank_head row with h1 | ⟨c, cs, h1, h2⟩
  · rw [scanToken_of_atEnd _ h1]
    exact skipBlank_of_atEnd_false row h h1
  · rw [h1]
    have := scanToken_length_lt c cs h2
    have := skipBlank_length_le row
    rw [h1] at this
    omega

theorem isTok_iff (c : Char) : isTok c = true ↔ c ≠ NUL ∧ isBlank c = false := by
  simp [isTok, isBlank, and_assoc]

theorem scanToken_tok (c : Char) (cs : List Char) (h : isTok c = true) :
    scanToken (c :: cs) = ((if c = '/' then NUL else c) :: (scanToken cs).1, (scanToken cs).2) := by
  have h1 : (c != NUL && c != ' ' && c != '\t') = true := h
  rw [scanToken, if_pos h1]

theorem scanToken_not_tok (c : Char) (cs : List Char) (h : isTok c = false) :
    scanToken (c :: cs) = ([], c :: cs) := by
  have h1 : ¬ (c != NUL && c != ' ' && c != '\t') = true := by
    have : (c != NUL && c != ' ' && c != '\t') = false := h
    simp [this]
  rw [scanToken, if_neg h1]

/-- The blank-separated pieces of the row start with the token under the cursor; the others
are those of the row after the token. -/
theorem splitOnP_scanToken (row : List Char) :
    ∃ tl, (cstr row).splitOnP isBlank = row.takeWhile isTok :: tl
      ∧ tl.filter (fun t => !t.isEmpty) = rowTokens (scanToken row).2 := by
  induction row with
  | nil => exact ⟨[], rfl, rfl⟩
  | cons c cs ih =>
    by_cases h : isTok c = true
    · obtain ⟨tl, h1, h2⟩ := ih
      have hc := (isTok_iff c).1 h
      refine ⟨tl, ?_, ?_⟩
      · have : cstr (c :: cs) = c :: cstr cs := by simp [cstr, List.takeWhile_cons, hc.1]
        rw [this, List.splitOnP_cons, h1]
        simp [hc.2, List.takeWhile_cons, h]
      · rw [scanToken_tok c cs h]; exact h2
    · have h' : isTok c = false := by simpa using h
      rw [scanToken_not_tok c cs h']
      by_cases hc : c = NUL
      · refine ⟨[], ?_, ?_⟩
        · simp [cstr, List.takeWhile_cons, hc, h']
          subst hc; simp [isTok]
        · rw [rowTokens_of_atEnd]; · rfl
          simp [atEnd, hc]
      · have hb : isBlank c = true := by
          by_contra hb
          exact h ((isTok_iff c).2 ⟨hc, by simpa using hb⟩)
        refine ⟨(cstr cs).splitOnP isBlank, ?_, ?_⟩
        · have : cstr (c :: cs) = c :: cstr cs := by simp [cstr, List.takeWhile_cons, hc]
          rw [this, List.splitOnP_cons]
          simp [hb, List.takeWhile_cons, h']
        · rw [rowTokens_blank c cs hc hb]; rfl

theorem rowTokens_scanToken (c : Char) (cs : List Char) (h : isTok c = true) :
    rowTokens (c :: cs) = (c :: cs).takeWhile isTok :: rowTokens (scanToken (c :: cs)).2 := by
  obtain ⟨tl, h1, h2⟩ := splitOnP_scanToken (c :: cs)
  unfold rowTokens at h2 ⊢
  rw [h1, ← h2]
  simp [List.takeWhile_cons, h, List.filter_cons]

theorem atEnd_scanToken (c : Char) (cs : List Char) (h : isTok c = true) :
    atEnd ((scanToken (c :: cs)).1 ++ (scanToken (c :: cs)).2)
      = (cutSlash ((c :: cs).takeWhile isTok)).isEmpty := by
  rw [scanToken_tok c cs h]
  have hc := (isTok_iff c).1 h
  by_cases hs : c = '/'
  · subst hs; simp [atEnd, cutSlash, List.takeWhile_cons, h]
  · simp [atEnd, cutSlash, List.takeWhile_cons, h, hs, hc.1]

/-- The storage `atoi` is applied to: the token cut at its first slash, followed by nothing,
by a terminator, or (for a token without slash) by a blank. -/
theorem scanToken_storage (row : List Char) :
    ∃ tail, (scanToken row).1 ++ (scanToken row).2 = cutSlash (row.takeWhile isTok) ++ tail
      ∧ (tail = [] ∨ (∃ x, tail = NUL :: x)
          ∨ (∃ d x, tail = d :: x ∧ isBlank d = true
                ∧ cutSlash (row.takeWhile isTok) = row.takeWhile isTok)) := by
  induction row with
  | nil => exact ⟨[], rfl, Or.inl rfl⟩
  | cons c cs ih =>
    by_cases h : isTok c = true
    · rw [scanToken_tok c cs h]
      by_cases hs : c = '/'
      · refine ⟨NUL :: ((scanToken cs).1 ++ (scanToken cs).2), ?_, Or.inr (Or.inl ⟨_, rfl⟩)⟩
        subst hs; simp [cutSlash, List.takeWhile_cons, h]
      · obtain ⟨tail, h1, h2⟩ := ih
        refine ⟨tail, ?_, ?_⟩
        · simp only [if_neg hs, List.cons_append, h1]
          simp [cutSlash, List.takeWhile_cons, h, hs]
        · rcases h2 with h2 | h2 | ⟨d, x, h2, h3, h4⟩
          · exact Or.inl h2
          · exact Or.inr (Or.inl h2)
          · refine Or.inr (Or.inr ⟨d, x, h2, h3, ?_⟩)
            simp only [cutSlash] at h4
            simp [cutSlash, List.takeWhile_cons, h, hs, h4]
    · have h' : isTok c = false := by simpa using h
      rw [scanToken_not_tok c cs h']
      refine ⟨c :: cs, by simp [cutSlash, List.takeWhile_cons, h'], ?_⟩
      by_cases hc : c = NUL
      · exact Or.inr (Or.inl ⟨cs, by rw [hc]⟩)
      · have hb : isBlank c = true := by
          by_contra hb
          exact h ((isTok_iff c).2 ⟨hc, by simpa using hb⟩)
        exact Or.inr (Or.inr ⟨c, cs, rfl, hb, by simp [cutSlash, List.takeWhile_cons, h']⟩)

theorem isBlank_facts (d : Char) (h : isBlank d = true) :
    isdigit d = false ∧ d ≠ '-' ∧ d ≠ '+' := by
  have : d = ' ' ∨ d = '\t' := by simpa [isBlank] using h
  rcases this with rfl | rfl <;> decide

/-- The conversion reads the token cut at its first slash. -/
theorem atoi_scanToken (row : List Char)
    (h : cutSlash (row.takeWhile isTok) = row.takeWhile isTok →
      ∃ c ∈ row.takeWhile isTok, isspace c = false) :
    atoi ((scanToken row).1 ++ (scanToken row).2) = atoi (cutSlash (row.takeWhile isTok)) := by
  obtain ⟨tail, h1, h2⟩ := scanToken_storage row
  rw [h1]
  rcases h2 with h2 | ⟨x, h2⟩ | ⟨d, x, h2, h3, h4⟩
  · simp [h2]
  · rw [h2]
    exact atoi_append_stop _ NUL x (by decide) (by decide) (by decide) (Or.inl (by decide))
  · rw [h2]
    obtain ⟨hd, hm, hp⟩ := isBlank_facts d h3
    refine atoi_append_stop _ d x hd hm hp (Or.inr ?_)
    rw [h4]
    exact h h4

theorem faceTokens_of_atEnd (row : List Char) (h : atEnd row = true) : faceTokens row = [] := by
  simp [faceTokens, rowTokens_of_atEnd row h]

theorem faceTokens_skipBlank (row : List Char) : faceTokens (skipBlank row) = faceTokens row := by
  simp [faceTokens, rowTokens_skipBlank]

theorem TokensConvertible_skipBlank (row : List Char) (h : TokensConvertible row) :
    TokensConvertible (skipBlank row) := by
  unfold TokensConvertible at h ⊢
  rw [rowTokens_skipBlank]; exact h

theorem parseFaceLoop_succ (n vc : Int) (fuel : Nat) (row : List Char) (data : List Int) :
    parseFaceLoop n vc (fuel + 1) row data =
      if atEnd row = true then some data
      else if atEnd ((scanToken (skipBlank row)).1 ++ (scanToken (skipBlank row)).2) = true then
        parseFaceLoop n vc fuel (scanToken (skipBlank row)).2 data
      else if ((data ++ [resolve vc (atoi ((scanToken (skipBlank row)).1
            ++ (scanToken (skipBlank row)).2))]).length : Int) ≥ n then
        some (data ++ [resolve vc (atoi ((scanToken (skipBlank row)).1
            ++ (scanToken (skipBlank row)).2))])
      else parseFaceLoop n vc fuel (scanToken (skipBlank row)).2
        (data ++ [resolve vc (atoi ((scanToken (skipBlank row)).1
            ++ (scanToken (skipBlank row)).2))]) := rfl

/-- The outer loop of `parseFace` returns whenever the fuel exceeds the length of the row. -/
theorem parseFaceLoop_isSome (n vc : Int) (fuel : Nat) :
    ∀ (row : List Char) (data : List Int), row.length < fuel →
      ∃ out, parseFaceLoop n vc fuel row data = some out := by
  induction fuel with
  | zero => intro row data h; omega
  | succ fuel ih =>
    intro row data h
    rw [parseFaceLoop_succ]
    by_cases hE : atEnd row = true
    · exact ⟨data, by simp [hE]⟩
    · have hE' : atEnd row = false := by simpa using hE
      have hlt := parseFace_step_lt row hE'
      rw [if_neg hE]
      split
      · exact ih _ _ (by omega)
      · split
        · exact ⟨_, rfl⟩
        · exact ih _ _ (by omega)

/-- The outer loop of `parseFace` appends the converted face tokens, up to the cap. -/
theorem parseFaceLoop_eq (n vc : Int) (fuel : Nat) :
    ∀ (row : List Char) (data : List Int), row.length < fuel → (data.length : Int) < n →
      TokensConvertible row →
      parseFaceLoop n vc fuel row data
        = some (data ++ ((faceTokens row).map (fun t => resolve vc (atoi t))).take
            (n.toNat - data.length)) := by
  induction fuel with
  | zero => intro row data h; omega
  | succ fuel ih =>
    intro row data h hn hT
    rw [parseFaceLoop_succ]
    by_cases hE : atEnd row = true
    · simp [hE, faceTokens_of_atEnd row hE]
    · have hE' : atEnd row = false := by simpa using hE
      have hlt := parseFace_step_lt row hE'
      rw [if_neg hE]
      rcases skipBlank_head row with h1 | ⟨c, cs, h1, h2⟩
      · -- only blanks were left
        have hs := scanToken_of_atEnd _ h1
        rw [hs] at hlt ⊢
        simp only [List.nil_append, h1, if_true]
        have hlt2 : (skipBlank row).length < fuel := by
          have : (skipBlank row).length < row.length := hlt
          omega
        rw [ih _ _ hlt2 hn (TokensConvertible_skipBlank row hT), faceTokens_skipBlank]
      · have hrow : rowTokens row
            = (c :: cs).takeWhile isTok :: rowTokens (scanToken (c :: cs)).2 := by
          rw [← rowTokens_skipBlank, h1]; exact rowTokens_scanToken c cs h2
        have hT2 : TokensConvertible (scanToken (c :: cs)).2 := by
          intro t ht; exact hT t (by rw [hrow]; exact List.mem_cons_of_mem _ ht)
        rw [h1] at hlt ⊢
        rw [atEnd_scanToken c cs h2]
        by_cases hcut : (cutSlash ((c :: cs).takeWhile isTok)).isEmpty = true
        · rw [if_pos hcut]
          rw [ih _ _ (by omega) hn hT2]
          have : faceTokens row = faceTokens (scanToken (c :: cs)).2 := by
            unfold faceTokens
            rw [hrow, List.map_cons, List.filter_cons]
            simp [hcut]
          rw [this]
        · have hface : faceTokens row
              = cutSlash ((c :: cs).takeWhile isTok) :: faceTokens (scanToken (c :: cs)).2 := by
            unfold faceTokens
            rw [hrow, List.map_cons, List.filter_cons]
            simp [hcut]
          have hatoi := atoi_scanToken (c :: cs)
            (fun hc => hT _ (by rw [hrow]; exact List.mem_cons_self _ _) hc)
          rw [if_neg hcut, hatoi, hface]
          have hpos : n.toNat - data.length = (n.toNat - (data.length + 1)) + 1 := by omega
          by_cases hfull : ((data ++ [resolve vc (atoi (cutSlash ((c :: cs).takeWhile isTok)))]).length : Int) ≥ n
          · rw [if_pos hfull]
            have h0 : n.toNat - (data.length + 1) = 0 := by
              simp only [List.length_append, List.length_singleton] at hfull
              omega
            simp [hpos, h0]
          · rw [if_neg hfull]
            have hlen : ((data ++ [resolve vc (atoi (cutSlash ((c :: cs).takeWhile isTok)))]).length : Int) < n := by
              omega
            rw [ih _ _ (by omega) hlen hT2]
            simp [hpos, List.take_succ_cons]

/-- Function `parseFace` returns for every row. -/
theorem parseFace_isSome (row : List Char) (n vc : Int) : ∃ face, parseFace row n vc = some face :=
  parseFaceLoop_isSome n vc _ row [] (Nat.lt_succ_self _)

/-- Function `parseFace` agrees with the reference on rows whose tokens the conversion stays in. -/
theorem parseFace_eq_ref (row : List Char) (n vc : Int) (hn : 1 ≤ n) (hT : TokensConvertible row) :
    parseFace row n vc = some (parseFaceRef row n vc) := by
  unfold parseFace parseFaceRef
  rw [parseFaceLoop_eq n vc _ row [] (Nat.lt_succ_self _) (by simpa using hn) hT]
  simp [List.map_take]

/-! ## Lemmas on the fan loop -/

theorem fanStep_eq (face : List Int) (i : Nat) (m : Mesh) :
    fanStep face i m =
      if triInRange m.m_vertCount (fanCandidate face i) = true then
        addTriangle (fanCandidate face i).1 (fanCandidate face i).2.1 (fanCandidate face i).2.2 m
      else m := by
  unfold fanStep triInRange fanCandidate
  simp only [decide_eq_true_eq]
  split
  · rename_i h
    rw [if_neg]
    omega
  · rename_i h
    rw [if_pos]
    omega

theorem fanStep_vertCount (face : List Int) (i : Nat) (m : Mesh) :
    (fanStep face i m).m_vertCount = m.m_vertCount := by
  rw [fanStep_eq]; split <;> rfl

/-- The fan loop appends the in-range candidates in order and changes nothing else. -/
theorem fanLoop_eq (face : List Int) :
    ∀ (k i : Nat) (m : Mesh),
      fanLoop face k i m =
        { m with
          m_tris := m.m_tris ++ (((List.range k).map (fun j => fanCandidate face (j + i))).filter
            (triInRange m.m_vertCount)).flatMap triFlat
          m_triCount := m.m_triCount + ((((List.range k).map
            (fun j => fanCandidate face (j + i))).filter (triInRange m.m_vertCount)).length : Nat) } := by
  intro k
  induction k with
  | zero => intro i m; simp [fanLoop]
  | succ k ih =>
    intro i m
    rw [fanLoop, ih, fanStep_vertCount, List.range_succ_eq_map, List.map_cons, List.map_map]
    have hf : ((fun j => fanCandidate face (j + i)) ∘ Nat.succ)
        = (fun j => fanCandidate face (j + (i + 1))) := by
      funext j; simp [Nat.succ_eq_add_one, Nat.add_right_comm, Nat.add_assoc, Nat.add_comm 1 i]
    rw [hf, Nat.zero_add, fanStep_eq]
    by_cases h : triInRange m.m_vertCount (fanCandidate face i) = true
    · rw [if_pos h, List.filter_cons_of_pos h]
      simp [addTriangle, triFlat, List.flatMap_cons, Int.add_assoc, Int.add_comm 1]
    · rw [if_neg h, List.filter_cons_of_neg h]

theorem fanLoop_face (face : List Int) (m : Mesh) :
    fanLoop face (face.length - 2) 2 m =
      { m with
        m_tris := m.m_tris ++ ((fanCandidates face).filter (triInRange m.m_vertCount)).flatMap triFlat
        m_triCount := m.m_triCount
          + (((fanCandidates face).filter (triInRange m.m_vertCount)).length : Nat) } :=
  fanLoop_eq face _ 2 m

/-! ## Lemmas on the parse pass -/

theorem parseRowLoop_length_le (len : Int) :
    ∀ (buf : List Char) (start : Bool) (row : List Char),
      (parseRowLoop len buf start row).2.length ≤ buf.length := by
  intro buf
  induction buf with
  | nil => intro start row; simp [parseRowLoop]
  | cons c buf ih =>
    intro start row
    unfold parseRowLoop
    have h1 := ih start row
    have h2 := ih false (row ++ [c])
    repeat' split
    all_goals simp only [List.length_cons]
    all_goals omega

/-- Function `parseRow` consumes at least one character of a non-empty buffer. -/
theorem parseRow_length_lt (c : Char) (cs : List Char) (len : Int) :
    (parseRow (c :: cs) len).2.length ≤ cs.length := by
  unfold parseRow parseRowLoop
  have h1 := parseRowLoop_length_le len cs true []
  have h2 := parseRowLoop_length_le len cs false ([] ++ [c])
  repeat' split
  all_goals first | omega | simp

theorem fanLoop_inv (P : Mesh → Prop) (hf : ∀ face i m, P m → P (fanStep face i m))
    (face : List Int) : ∀ (k i : Nat) (m : Mesh), P m → P (fanLoop face k i m) := by
  intro k
  induction k with
  | zero => intro i m h; exact h
  | succ k ih => intro i m h; exact ih _ _ (hf face i m h)

/-- The body of the parse loop returns, and keeps every property of the mesh that `addVertex`
and the guarded `addTriangle` keep. -/
theorem loadRow_inv (A : FloatArith) (P : Mesh → Prop)
    (hv : ∀ m x y z, P m → P (addVertex x y z m))
    (hf : ∀ face i m, P m → P (fanStep face i m))
    (row : List Char) (st : LoadState) (h : P st.mesh) :
    ∃ st1, loadRow A row st = some st1 ∧ P st1.mesh := by
  unfold loadRow
  have hP1 : P (loadVertex A row st).mesh := by
    unfold loadVertex
    split
    · exact hv _ _ _ _ h
    · exact h
  split
  · exact ⟨st, rfl, h⟩
  · split
    · obtain ⟨face, hface⟩ := parseFace_isSome (row.drop 1) 32 (loadVertex A row st).mesh.m_vertCount
      simp only [loadFace, hface]
      exact ⟨_, rfl, fanLoop_inv P hf face _ _ _ hP1⟩
    · exact ⟨_, rfl, hP1⟩

/-- The parse loop returns when the fuel is at least the length of the buffer, and keeps every
property of the mesh that `addVertex` and the guarded `addTriangle` keep. -/
theorem loadLoop_inv (A : FloatArith) (P : Mesh → Prop)
    (hv : ∀ m x y z, P m → P (addVertex x y z m))
    (hf : ∀ face i m, P m → P (fanStep face i m)) (fuel : Nat) :
    ∀ (buf : List Char) (st : LoadState), buf.length ≤ fuel → P st.mesh →
      ∃ st1, loadLoop A fuel buf st = some st1 ∧ P st1.mesh := by
  induction fuel with
  | zero =>
    intro buf st hl h
    cases buf with
    | nil => exact ⟨st, by simp [loadLoop], h⟩
    | cons c cs => simp at hl
  | succ fuel ih =>
    intro buf st hl h
    cases buf with
    | nil => exact ⟨st, by simp [loadLoop], h⟩
    | cons c cs =>
      obtain ⟨st1, h1, hP1⟩ := loadRow_inv A P hv hf (parseRow (c :: cs) 512).1 st h
      have hlen := parseRow_length_lt c cs 512
      simp only [loadLoop, h1]
      exact ih _ st1 (by simp at hl; omega) hP1

theorem loadParse_inv (A : FloatArith) (P : Mesh → Prop)
    (hv : ∀ m x y z, P m → P (addVertex x y z m))
    (hf : ∀ face i m, P m → P (fanStep face i m)) (buf : List Char) (st : LoadState)
    (h : P st.mesh) : ∃ st1, loadParse A buf st = some st1 ∧ P st1.mesh :=
  loadLoop_inv A P hv hf _ buf st (Nat.le_refl _) h

theorem TrisInRange_addVertex (m : Mesh) (x y z : F32) (h : TrisInRange m) :
    TrisInRange (addVertex x y z m) := by
  intro t ht
  have := h t ht
  simp only [addVertex]
  omega

theorem TrisInRange_fanStep (face : List Int) (i : Nat) (m : Mesh) (h : TrisInRange m) :
    TrisInRange (fanStep face i m) := by
  rw [fanStep_eq]
  split
  · rename_i hr
    simp only [triInRange, decide_eq_true_eq] at hr
    intro t ht
    simp only [addTriangle, List.mem_append, List.mem_cons, List.mem_singleton,
      List.not_mem_nil, or_false] at ht ⊢
    rcases ht with ht | rfl | rfl | rfl
    · exact h t ht
    · exact ⟨hr.1, hr.2.1⟩
    · exact ⟨hr.2.2.1, hr.2.2.2.1⟩
    · exact ⟨hr.2.2.2.2.1, hr.2.2.2.2.2⟩
  · exact h

theorem CountsMatch_addVertex (m : Mesh) (x y z : F32) (h : CountsMatch m) :
    CountsMatch (addVertex x y z m) := by
  obtain ⟨h1, h2⟩ := h
  refine ⟨?_, h2⟩
  simp only [addVertex, List.length_append, List.length_cons, List.length_nil]
  push_cast; omega

theorem CountsMatch_fanStep (face : List Int) (i : Nat) (m : Mesh) (h : CountsMatch m) :
    CountsMatch (fanStep face i m) := by
  rw [fanStep_eq]
  split
  · obtain ⟨h1, h2⟩ := h
    refine ⟨h1, ?_⟩
    simp only [addTriangle, List.length_append, List.length_cons, List.length_nil]
    push_cast; omega
  · exact h

/-! ## Lemmas on the normal pass -/

theorem resize_length (l : List F32) (n : Nat) : (resize l n).length = n := by
  simp only [resize, List.length_append, List.length_take, List.length_replicate]
  omega

theorem vertAt_isSome (m : Mesh) (t : Int) (j : Nat) (hj : j < 3)
    (hl : (m.m_verts.length : Int) = 3 * m.m_vertCount) (h0 : 0 ≤ t) (h1 : t < m.m_vertCount) :
    ∃ v, vertAt m t j = some v := by
  unfold vertAt
  rw [if_neg (by omega)]
  have : (t * 3).toNat + j < m.m_verts.length := by omega
  exact ⟨m.m_verts[(t * 3).toNat + j], List.getElem?_eq_getElem this⟩

theorem vert3_isSome (m : Mesh) (t : Int)
    (hl : (m.m_verts.length : Int) = 3 * m.m_vertCount) (h0 : 0 ≤ t) (h1 : t < m.m_vertCount) :
    ∃ v, vert3 m t = some v := by
  obtain ⟨a, ha⟩ := vertAt_isSome m t 0 (by decide) hl h0 h1
  obtain ⟨b, hb⟩ := vertAt_isSome m t 1 (by decide) hl h0 h1
  obtain ⟨c, hc⟩ := vertAt_isSome m t 2 (by decide) hl h0 h1
  exact ⟨(a, b, c), by simp [vert3, ha, hb, hc]⟩

/-- One step of the normal loop stays in bounds and writes normals only. -/
theorem normalStep_ok (A : FloatArith) (i : Nat) (m : Mesh)
    (hi : i + 3 ≤ m.m_tris.length) (hl : (m.m_verts.length : Int) = 3 * m.m_vertCount)
    (hr : TrisInRange m) :
    ∃ ns, normalStep A i m = some { m with m_normals := ns }
      ∧ ns.length = m.m_normals.length := by
  have e0 : m.m_tris[i]? = some m.m_tris[i] := List.getElem?_eq_getElem (by omega)
  have e1 : m.m_tris[i + 1]? = some m.m_tris[i + 1] := List.getElem?_eq_getElem (by omega)
  have e2 : m.m_tris[i + 2]? = some m.m_tris[i + 2] := List.getElem?_eq_getElem (by omega)
  have r0 := hr _ (List.getElem_mem (by omega : i < m.m_tris.length))
  have r1 := hr _ (List.getElem_mem (by omega : i + 1 < m.m_tris.length))
  have r2 := hr _ (List.getElem_mem (by omega : i + 2 < m.m_tris.length))
  obtain ⟨v0, hv0⟩ := vert3_isSome m _ hl r0.1 r0.2
  obtain ⟨v1, hv1⟩ := vert3_isSome m _ hl r1.1 r1.2
  obtain ⟨v2, hv2⟩ := vert3_isSome m _ hl r2.1 r2.2
  refine ⟨((m.m_normals.set i (faceNormal A v0 v1 v2).1).set (i + 1)
    (faceNormal A v0 v1 v2).2.1).set (i + 2) (faceNormal A v0 v1 v2).2.2, ?_, ?_⟩
  · simp only [normalStep, e0, e1, e2, hv0, hv1, hv2]
  · simp

/-- The normal loop stays in bounds and writes normals only. -/
theorem normalLoop_ok (A : FloatArith) :
    ∀ (k i : Nat) (m : Mesh), i + 3 * k ≤ m.m_tris.length →
      (m.m_verts.length : Int) = 3 * m.m_vertCount → TrisInRange m →
      ∃ ns, normalLoop A k i m = some { m with m_normals := ns }
        ∧ ns.length = m.m_normals.length := by
  intro k
  induction k with
  | zero => intro i m _ _ _; exact ⟨m.m_normals, rfl, rfl⟩
  | succ k ih =>
    intro i m hi hl hr
    obtain ⟨ns, h1, h2⟩ := normalStep_ok A i m (by omega) hl hr
    obtain ⟨ns2, h3, h4⟩ := ih (i + 3) { m with m_normals := ns } (by simpa using by omega) hl hr
    refine ⟨ns2, ?_, by rw [h4]; exact h2⟩
    simp only [normalLoop, h1, h3]

/-- The normal pass returns on a mesh whose counts match and whose indices are in range; it
replaces the normals by an array of `3 * m_triCount` floats and changes nothing else. -/
theorem calcNormals_ok (A : FloatArith) (m : Mesh) (hc : CountsMatch m) (hr : TrisInRange m) :
    ∃ ns, calcNormals A m = some { m with m_normals := ns }
      ∧ (ns.length : Int) = 3 * m.m_triCount := by
  obtain ⟨hl, ht⟩ := hc
  have hT : ¬ m.m_triCount < 0 := by omega
  obtain ⟨ns, h1, h2⟩ := normalLoop_ok A m.m_triCount.toNat 0
    { m with m_normals := resize m.m_normals (m.m_triCount * 3).toNat }
    (by simp only [Nat.zero_add]; omega) hl hr
  refine ⟨ns, ?_, ?_⟩
  · simp only [calcNormals, if_neg hT, h1]
  · rw [h2]; simp only [resize_length]; omega

/-! ## Lemmas on the binary cache -/

theorem ofLe32_le32_append (n : Nat) (h : n < 4294967296) (rest : List Nat) :
    ofLe32 ((le32 n ++ rest).take 4) = n := by
  simp only [le32, ofLe32, List.cons_append, List.nil_append, List.take_succ_cons, List.take_zero,
    List.getD_cons_zero, List.getD_cons_succ]
  omega

theorem le32_append_drop (n : Nat) (rest : List Nat) : (le32 n ++ rest).drop 4 = rest := by
  simp [le32]

theorem le32_length (n : Nat) : (le32 n).length = 4 := rfl

theorem bitsInt_intBits (i : Int) (h0 : -2147483648 ≤ i) (h1 : i < 2147483648) :
    bitsInt (intBits i) = i := by
  unfold bitsInt intBits
  have h2 : 0 ≤ i % 4294967296 := Int.emod_nonneg _ (by decide)
  have h3 : i % 4294967296 < 4294967296 := Int.emod_lt_of_pos _ (by decide)
  have h4 : ((i % 4294967296).toNat : Int) = i % 4294967296 := Int.toNat_of_nonneg h2
  have h5 : (i % 4294967296).toNat % 4294967296 = (i % 4294967296).toNat := by
    apply Nat.mod_eq_of_lt; omega
  rw [h5]
  split <;> omega

theorem intBits_lt (i : Int) : intBits i < 4294967296 := by
  unfold intBits
  have h2 : 0 ≤ i % 4294967296 := Int.emod_nonneg _ (by decide)
  have h3 : i % 4294967296 < 4294967296 := Int.emod_lt_of_pos _ (by decide)
  omega

theorem F32.ofBits_bits (x : F32) : F32.ofBits x.bits = x := by
  cases x with
  | mk b h => simp [F32.ofBits, Nat.mod_eq_of_lt h]

/-- Reading back the elements that were written, whatever follows them in the file. -/
theorem freadWords_flatMap {α : Type} (f : α → Nat) (hf : ∀ x, f x < 4294967296) :
    ∀ (l : List α) (rest : List Nat),
      freadWords l.length (l.flatMap (fun x => le32 (f x)) ++ rest) = l.map f := by
  intro l
  induction l with
  | nil => intro rest; rfl
  | cons a l ih =>
    intro rest
    simp only [List.length_cons, List.flatMap_cons, List.append_assoc, freadWords, List.map_cons]
    rw [ofLe32_le32_append _ (hf a), le32_append_drop, ih]

theorem flatMap_le32_length {α : Type} (f : α → Nat) (l : List α) :
    (l.flatMap (fun x => le32 (f x))).length = 4 * l.length := by
  induction l with
  | nil => rfl
  | cons a l ih => simp only [List.flatMap_cons, List.length_append, le32_length, ih,
      List.length_cons]; omega

theorem append_left_ne (s a b : String) (h : a ≠ b) : s ++ a ≠ s ++ b := by
  intro e
  apply h
  have := congrArg String.data e
  simp only [String.data_append] at this
  exact String.ext (List.append_cancel_left this)

/-! ## Claims -/

theorem getD_mem_of_lt (l : List Int) (i : Nat) (h : i < l.length) : l.getD i 0 ∈ l := by
  rw [List.getD_eq_getElem l 0 h]
  exact List.getElem_mem h

theorem TokensConvertible_of_inRange (row : List Char) (vc : Int)
    (hr : ∀ t ∈ faceTokens row, 0 ≤ resolve vc (atoi t)) : TokensConvertible row := by
  intro t ht hcut
  by_contra hall
  have hall2 : ∀ c ∈ t, isspace c = true := by
    intro c hc
    by_contra hs
    exact hall ⟨c, hc, by simpa using hs⟩
  have hne : t.isEmpty = false := by
    have := (List.mem_filter.1 ht).2
    simpa using this
  have hmem : t ∈ faceTokens row := by
    unfold faceTokens
    refine List.mem_filter.2 ⟨List.mem_map.2 ⟨t, ht, hcut⟩, by simp [hne]⟩
  have h0 := hr t hmem
  rw [atoi_of_all_space t hall2] at h0
  simp [resolve] at h0

/-- C3. For every parsed face array and every vertex count the fan loop of lines 179-187
appends exactly, and in order, the candidates `(face[0], face[i-1], face[i])`, `i = 2..nv-1`,
whose three indices lie in `[0, m_vertCount)`, and changes nothing else: an out-of-range
candidate is dropped alone.  The row `f 1 2 99` on a mesh with three vertices leaves the mesh
as it was. -/
theorem fan_keeps_in_range_candidates (face : List Int) (m : Mesh) :
    fanLoop face (face.length - 2) 2 m =
        { m with
          m_tris := m.m_tris
            ++ ((fanCandidates face).filter (triInRange m.m_vertCount)).flatMap triFlat
          m_triCount := m.m_triCount
            + (((fanCandidates face).filter (triInRange m.m_vertCount)).length : Nat) }
      ∧ loadFace ['f', ' ', '1', ' ', '2', ' ', '9', '9'] { m with m_vertCount := 3 }
        = some { m with m_vertCount := 3 } := by
  refine ⟨fanLoop_face face m, ?_⟩
  have hp : parseFace [' ', '1', ' ', '2', ' ', '9', '9'] 32 3 = some [0, 1, 98] := by decide
  simp only [loadFace, List.drop_succ_cons, List.drop_zero, hp]
  simp [fanLoop, fanStep]

/-- C1 (as stated, refuted).  A face row with 33 tokens `1`, all resolving to the index `0` of
a one-vertex mesh, appends 30 triangles, not `33 - 2`. -/
theorem fan_count_stops_at_cap :
    (faceTokens rowOnes).length = 33
      ∧ (∀ t ∈ faceTokens rowOnes, 0 ≤ resolve meshOne.m_vertCount (atoi t)
          ∧ resolve meshOne.m_vertCount (atoi t) < meshOne.m_vertCount)
      ∧ (loadFace ('f' :: rowOnes) meshOne).map (fun m => m.m_triCount - meshOne.m_triCount)
          = some 30 := by
  decide

/-- C1 (amended).  For every face row holding `nv >= 3` index tokens that all resolve into
`[0, m_vertCount)`, the face handling of `load` appends exactly `min nv 32 - 2` triangles to
the triangle list, each with the resolved first token as its first index. -/
theorem fan_triangle_count (row : List Char) (m : Mesh)
    (h3 : 3 ≤ (faceTokens row).length)
    (hr : ∀ t ∈ faceTokens row, 0 ≤ resolve m.m_vertCount (atoi t)
      ∧ resolve m.m_vertCount (atoi t) < m.m_vertCount) :
    ∃ tris : List (Int × Int × Int),
      loadFace ('f' :: row) m
          = some { m with
              m_tris := m.m_tris ++ tris.flatMap triFlat
              m_triCount := m.m_triCount + ((min (faceTokens row).length 32 - 2 : Nat) : Int) }
        ∧ tris.length = min (faceTokens row).length 32 - 2
        ∧ ∀ t ∈ tris, t.1 = resolve m.m_vertCount (atoi ((faceTokens row).headD [])) := by
  have hT := TokensConvertible_of_inRange row m.m_vertCount (fun t ht => (hr t ht).1)
  have hpf := parseFace_eq_ref row 32 m.m_vertCount (by decide) hT
  have hlen : (parseFaceRef row 32 m.m_vertCount).length = min (faceTokens row).length 32 := by
    simp [parseFaceRef, Nat.min_comm]
  have hmem : ∀ v ∈ parseFaceRef row 32 m.m_vertCount, 0 ≤ v ∧ v < m.m_vertCount := by
    intro v hv
    obtain ⟨t, ht, rfl⟩ := List.mem_map.1 hv
    exact hr t (List.mem_of_mem_take ht)
  have hall : ∀ t ∈ fanCandidates (parseFaceRef row 32 m.m_vertCount),
      triInRange m.m_vertCount t = true := by
    intro t ht
    obtain ⟨k, hk, rfl⟩ := List.mem_map.1 ht
    have hk2 : k < (parseFaceRef row 32 m.m_vertCount).length - 2 := List.mem_range.1 hk
    have a := hmem _ (getD_mem_of_lt _ 0 (by omega))
    have b := hmem _ (getD_mem_of_lt _ (k + 2 - 1) (by omega))
    have c := hmem _ (getD_mem_of_lt _ (k + 2) (by omega))
    simp only [triInRange, fanCandidate, decide_eq_true_eq]
    exact ⟨a.1, a.2, b.1, b.2, c.1, c.2⟩
  have hfil : (fanCandidates (parseFaceRef row 32 m.m_vertCount)).filter
      (triInRange m.m_vertCount) = fanCandidates (parseFaceRef row 32 m.m_vertCount) :=
    List.filter_eq_self.2 hall
  have hcl : (fanCandidates (parseFaceRef row 32 m.m_vertCount)).length
      = min (faceTokens row).length 32 - 2 := by
    simp [fanCandidates, hlen]
  refine ⟨fanCandidates (parseFaceRef row 32 m.m_vertCount), ?_, hcl, ?_⟩
  · simp only [loadFace, List.drop_succ_cons, List.drop_zero, hpf]
    rw [fanLoop_face, hfil, hcl]
  · intro t ht
    obtain ⟨k, _, rfl⟩ := List.mem_map.1 ht
    simp only [fanCandidate]
    cases hft : faceTokens row with
    | nil => rw [hft] at h3; simp at h3
    | cons a l => simp [parseFaceRef, hft]

/-- Witness for C1 (amended): the row ` 1 2 3 4` on a mesh with four vertices. -/
theorem fan_triangle_count_witness :
    ∃ tris : List (Int × Int × Int),
      loadFace ('f' :: [' ', '1', ' ', '2', ' ', '3', ' ', '4']) { Mesh.new with m_vertCount := 4 }
          = some { ({ Mesh.new with m_vertCount := 4 } : Mesh) with
              m_tris := Mesh.new.m_tris ++ tris.flatMap triFlat
              m_triCount := 0 + ((min (faceTokens [' ', '1', ' ', '2', ' ', '3', ' ', '4']).length 32
                - 2 : Nat) : Int) }
        ∧ tris.length = min (faceTokens [' ', '1', ' ', '2', ' ', '3', ' ', '4']).length 32 - 2
        ∧ ∀ t ∈ tris, t.1 = resolve 4 (atoi ((faceTokens [' ', '1', ' ', '2', ' ', '3', ' ', '4']).headD [])) :=
  fan_triangle_count [' ', '1', ' ', '2', ' ', '3', ' ', '4'] { Mesh.new with m_vertCount := 4 }
    (by decide) (by decide)

/-- C2. On a fresh mesh the parse pass of `load` returns, and every entry of the triangle
index list lies in `[0, m_vertCount)` for the final vertex count; every read of `m_tris` and
`m_verts` made by the normal pass is in bounds and that pass returns.  The predicate is
kept by `addVertex` and by the guarded `addTriangle` of the fan loop. -/
theorem triangle_indices_in_range (A : FloatArith) (buf : List Char) (x y z : F32) :
    (∃ st, loadParse A buf { mesh := Mesh.new, x := x, y := y, z := z } = some st
        ∧ TrisInRange st.mesh
        ∧ (∀ i j, i < st.mesh.m_tris.length → j < 3 →
            ∃ t v, st.mesh.m_tris[i]? = some t ∧ vertAt st.mesh t j = some v)
        ∧ ∃ m, calcNormals A st.mesh = some m)
      ∧ (∀ m x y z, TrisInRange m → TrisInRange (addVertex x y z m))
      ∧ (∀ face i m, TrisInRange m → TrisInRange (fanStep face i m)) := by
  refine ⟨?_, TrisInRange_addVertex, TrisInRange_fanStep⟩
  obtain ⟨st, h1, hr, hc⟩ := loadParse_inv A (fun m => TrisInRange m ∧ CountsMatch m)
    (fun m x y z h => ⟨TrisInRange_addVertex m x y z h.1, CountsMatch_addVertex m x y z h.2⟩)
    (fun face i m h => ⟨TrisInRange_fanStep face i m h.1, CountsMatch_fanStep face i m h.2⟩)
    buf { mesh := Mesh.new, x := x, y := y, z := z }
    ⟨fun t ht => by simp [Mesh.new] at ht, by simp [CountsMatch, Mesh.new]⟩
  refine ⟨st, h1, hr, ?_, ?_⟩
  · intro i j hi hj
    have hm := hr _ (List.getElem_mem hi)
    obtain ⟨v, hv⟩ := vertAt_isSome st.mesh _ j hj hc.1 hm.1 hm.2
    exact ⟨_, v, List.getElem?_eq_getElem hi, hv⟩
  · obtain ⟨ns, h2, _⟩ := calcNormals_ok A st.mesh hc hr
    exact ⟨_, h2⟩

/-- Witness for C2: the buffer `f 1 2 3` alone, whose
only candidate is out of range. -/
theorem triangle_indices_in_range_witness :
    (∃ st, loadParse binary32 ['f', ' ', '1', ' ', '2', ' ', '3']
          { mesh := Mesh.new, x := F32.zero, y := F32.zero, z := F32.zero } = some st
        ∧ TrisInRange st.mesh
        ∧ (∀ i j, i < st.mesh.m_tris.length → j < 3 →
            ∃ t v, st.mesh.m_tris[i]? = some t ∧ vertAt st.mesh t j = some v)
        ∧ ∃ m, calcNormals binary32 st.mesh = some m)
      ∧ (∀ m x y z, TrisInRange m → TrisInRange (addVertex x y z m))
      ∧ (∀ face i m, TrisInRange m → TrisInRange (fanStep face i m)) :=
  triangle_indices_in_range binary32 ['f', ' ', '1', ' ', '2', ' ', '3'] F32.zero F32.zero F32.zero

/-- C10 (as stated, refuted).  On the row made of a blank, a vertical tab, a blank and `5`,
with `vcnt = 0`, `parseFace` stores `(4, 4)`: the conversion of the token made of the
vertical tab runs on into the next token.  The claim gives `(-1, 4)`. -/
theorem parseFace_reads_past_space_token :
    parseFace rowVtab 32 0 = some [4, 4] ∧ parseFaceRef rowVtab 32 0 = [-1, 4] := by
  decide

/-- C10 (amended).  For every row in which each token without a slash holds a character that
is not C white space, every vertex count and every cap `n >= 1`, `parseFace` returns
`j = min(n, k)` for the number `k` of blank-separated tokens that are non-empty after the
cut at the first slash, and the output `i < j` is `resolve (atoi token_i)` for the `i`-th
such token; no token beyond the `n`-th reaches the output. -/
theorem parseFace_refines_tokens (row : List Char) (n vc : Int) (hn : 1 ≤ n)
    (hT : TokensConvertible row) :
    ∃ data, parseFace row n vc = some data
      ∧ data.length = min n.toNat (faceTokens row).length
      ∧ ∀ i, i < data.length →
          data[i]? = ((faceTokens row)[i]?).map (fun t => resolve vc (atoi t)) := by
  refine ⟨parseFaceRef row n vc, parseFace_eq_ref row n vc hn hT, ?_, ?_⟩
  · simp [parseFaceRef]
  · intro i hi
    have hi2 : i < n.toNat := by
      simp only [parseFaceRef, List.length_map, List.length_take] at hi
      omega
    simp only [parseFaceRef, List.getElem?_map, List.getElem?_take, if_pos hi2]

/-- Witness for C10 (amended): the row ` 1/7/9 2/8 3//4 -1 /5`, cap 32. -/
theorem parseFace_refines_tokens_witness :
    ∃ data, parseFace rowSlashes 32 4 = some data
      ∧ data.length = min (32 : Int).toNat (faceTokens rowSlashes).length
      ∧ ∀ i, i < data.length →
          data[i]? = ((faceTokens rowSlashes)[i]?).map (fun t => resolve 4 (atoi t)) :=
  parseFace_refines_tokens rowSlashes 32 4 (by decide) (by unfold TokensConvertible; decide)

theorem quad_first_row (x y z : F32) :
    loadRow binary32 ['v', ' ', '0', ' ', '0', ' ', '0'] { mesh := Mesh.new, x := x, y := y, z := z }
      = loadRow binary32 ['v', ' ', '0', ' ', '0', ' ', '0'] freshState := by
  have hs : ∀ a b c, sscanf3 binary32 [' ', '0', ' ', '0', ' ', '0'] a b c
      = (F32.zero, F32.zero, F32.zero) := by
    intro a b c
    have h1 : binary32.scanFloat ((cstr [' ', '0', ' ', '0', ' ', '0']).dropWhile isspace)
        = some (F32.zero, [' ', '0', ' ', '0']) := by decide
    have h2 : binary32.scanFloat (([' ', '0', ' ', '0'] : List Char).dropWhile isspace)
        = some (F32.zero, [' ', '0']) := by decide
    have h3 : binary32.scanFloat (([' ', '0'] : List Char).dropWhile isspace)
        = some (F32.zero, []) := by decide
    simp only [sscanf3, h1, h2, h3]
  have h0 : ¬ rowAt ['v', ' ', '0', ' ', '0', ' ', '0'] 0 = '#' := by decide
  have h1 : rowAt ['v', ' ', '0', ' ', '0', ' ', '0'] 0 = 'v'
      ∧ rowAt ['v', ' ', '0', ' ', '0', ' ', '0'] 1 ≠ 'n'
      ∧ rowAt ['v', ' ', '0', ' ', '0', ' ', '0'] 1 ≠ 't' := by decide
  have h2 : ¬ rowAt ['v', ' ', '0', ' ', '0', ' ', '0'] 0 = 'f' := by decide
  simp only [loadRow, loadVertex, if_neg h0, if_pos h1, if_neg h2, List.drop_succ_cons,
    List.drop_zero, hs, freshState]

/-- A buffer that starts with the row `v 0 0 0` loads the same whatever `x`, `y`, `z` held. -/
theorem load_after_first_vertex (name : String) (tail : List Char) (x y z : F32) :
    loadBuffer binary32 name ('v' :: ' ' :: '0' :: ' ' :: '0' :: ' ' :: '0' :: '\n' :: 'v' :: tail)
        { mesh := Mesh.new, x := x, y := y, z := z }
      = loadBuffer binary32 name
          ('v' :: ' ' :: '0' :: ' ' :: '0' :: ' ' :: '0' :: '\n' :: 'v' :: tail) freshState := by
  have hrow : parseRow ('v' :: ' ' :: '0' :: ' ' :: '0' :: ' ' :: '0' :: '\n' :: 'v' :: tail) 512
      = (['v', ' ', '0', ' ', '0', ' ', '0'], 'v' :: tail) := rfl
  simp only [loadBuffer, loadParse, List.length_cons, loadLoop, hrow, quad_first_row x y z]

theorem quad_load :
    loadBuffer binary32 "quad.obj" quadText freshState = some quadMesh
      ∧ loadBuffer binary32 "quad.obj" (quadText ++ ['\n']) freshState = some quadMesh := by
  have hp : loadParse binary32 quadText freshState
      = some { mesh := quadParsed, x := F32.one, y := F32.one, z := F32.zero } := by decide
  have hq : loadParse binary32 (quadText ++ ['\n']) freshState
      = some { mesh := quadParsed, x := F32.one, y := F32.one, z := F32.zero } := by decide
  have hn : calcNormals binary32 quadParsed
      = some { quadParsed with
          m_normals := [F32.zero, F32.zero, F32.one, F32.zero, F32.zero, F32.negOne] } := by
    decide
  simp only [loadBuffer, hp, hq, hn, quadMesh, and_self]

/-- C5 (as stated, refuted).  On the five lines of the example the normals are not
`(0,0,1)` twice: the second one is `(0,0,-1)`. -/
theorem quad_normals_not_both_up :
    (loadBuffer binary32 "quad.obj" quadText freshState).map (fun m => m.m_normals)
        ≠ some [F32.zero, F32.zero, F32.one, F32.zero, F32.zero, F32.one]
      ∧ (loadBuffer binary32 "quad.obj" quadText freshState).map (fun m => m.m_normals)
        = some [F32.zero, F32.zero, F32.one, F32.zero, F32.zero, F32.negOne] := by
  rw [quad_load.1]
  decide

/-- C5 (amended).  Loading the five lines into an empty mesh yields vertex count 4 with the
four points, the triangle list `[(0,1,2),(0,2,3)]` (triangle count 2) and the normals
`(0,0,1)` and `(0,0,-1)`; a final line feed changes nothing. -/
theorem quad_example (x y z : F32) :
    loadBuffer binary32 "quad.obj" quadText { mesh := Mesh.new, x := x, y := y, z := z }
        = some { m_filename := "quad.obj"
                 m_scale := F32.one
                 m_verts := [F32.zero, F32.zero, F32.zero, F32.one, F32.zero, F32.zero,
                             F32.zero, F32.one, F32.zero, F32.one, F32.one, F32.zero]
                 m_tris := [0, 1, 2, 0, 2, 3]
                 m_normals := [F32.zero, F32.zero, F32.one, F32.zero, F32.zero, F32.negOne]
                 m_vertCount := 4
                 m_triCount := 2 }
      ∧ loadBuffer binary32 "quad.obj" (quadText ++ ['\n'])
          { mesh := Mesh.new, x := x, y := y, z := z }
        = loadBuffer binary32 "quad.obj" quadText { mesh := Mesh.new, x := x, y := y, z := z } := by
  have e1 : quadText
      = 'v' :: ' ' :: '0' :: ' ' :: '0' :: ' ' :: '0' :: '\n' :: 'v' :: quadText.drop 9 := by
    decide
  have e2 : quadText ++ ['\n']
      = 'v' :: ' ' :: '0' :: ' ' :: '0' :: ' ' :: '0' :: '\n' :: 'v'
          :: (quadText.drop 9 ++ ['\n']) := by
    decide
  have h1 : loadBuffer binary32 "quad.obj" quadText { mesh := Mesh.new, x := x, y := y, z := z }
      = loadBuffer binary32 "quad.obj" quadText freshState := by
    have h := load_after_first_vertex "quad.obj" (quadText.drop 9) x y z
    exact (congrArg (fun b => loadBuffer binary32 "quad.obj" b
      { mesh := Mesh.new, x := x, y := y, z := z }) e1).trans
        (h.trans (congrArg (fun b => loadBuffer binary32 "quad.obj" b freshState) e1).symm)
  have h2 : loadBuffer binary32 "quad.obj" (quadText ++ ['\n'])
        { mesh := Mesh.new, x := x, y := y, z := z }
      = loadBuffer binary32 "quad.obj" (quadText ++ ['\n']) freshState := by
    have h := load_after_first_vertex "quad.obj" (quadText.drop 9 ++ ['\n']) x y z
    exact (congrArg (fun b => loadBuffer binary32 "quad.obj" b
      { mesh := Mesh.new, x := x, y := y, z := z }) e2).trans
        (h.trans (congrArg (fun b => loadBuffer binary32 "quad.obj" b freshState) e2).symm)
  rw [h1, h2, quad_load.1, quad_load.2]
  exact ⟨rfl, rfl⟩

/-! ### The binary cache -/

theorem fwriteFloats_all (l : List F32) (c : Int) (h : (l.length : Int) = c) :
    fwriteFloats l c = some (l.flatMap (fun x => le32 x.bits)) := by
  unfold fwriteFloats
  rw [if_pos ⟨by omega, by omega⟩, List.take_of_length_le (by omega)]

theorem fwriteInts_all (l : List Int) (c : Int) (h : (l.length : Int) = c) :
    fwriteInts l c = some (l.flatMap (fun i => le32 (intBits i))) := by
  unfold fwriteInts
  rw [if_pos ⟨by omega, by omega⟩, List.take_of_length_le (by omega)]

theorem freadCount_written (c : Int) (h0 : 0 ≤ c) (h1 : c < 2147483648) (rest : List Nat) :
    freadCount (le32 (intBits c) ++ rest) = c := by
  unfold freadCount
  rw [ofLe32_le32_append _ (intBits_lt c), bitsInt_intBits c (by omega) h1]

/-- A record file that was written is read back as it was. -/
theorem readRecords_written {α : Type} (f : α → Nat) (hf : ∀ x, f x < 4294967296)
    (l : List α) (c : Int) (hl : (l.length : Int) = 3 * c) (hc : 3 * c < 2147483648) :
    readRecords (le32 (intBits c) ++ l.flatMap (fun x => le32 (f x))) = some (c, l.map f) := by
  unfold readRecords
  have h0 : 0 ≤ c := by omega
  rw [freadCount_written c h0 (by omega)]
  simp only []
  rw [if_pos ⟨h0, by omega⟩, le32_append_drop]
  have hn : (c * 3).toNat = l.length := by omega
  have := freadWords_flatMap f hf l []
  rw [List.append_nil] at this
  rw [hn, this]

/-- The normals file that was written is read back as it was. -/
theorem readScalars_written {α : Type} (f : α → Nat) (hf : ∀ x, f x < 4294967296)
    (l : List α) (c : Int) (hl : (l.length : Int) = c) (hc : c < 2147483648) :
    readScalars (le32 (intBits c) ++ l.flatMap (fun x => le32 (f x))) = some (l.map f) := by
  unfold readScalars
  have h0 : 0 ≤ c := by omega
  rw [freadCount_written c h0 hc]
  simp only []
  rw [if_pos h0, le32_append_drop]
  have hn : c.toNat = l.length := by omega
  have := freadWords_flatMap f hf l []
  rw [List.append_nil] at this
  rw [hn, this]

theorem map_ofBits_bits (l : List F32) : (l.map F32.bits).map F32.ofBits = l := by
  rw [List.map_map]
  conv_rhs => rw [← List.map_id l]
  exact List.map_congr_left (fun x _ => F32.ofBits_bits x)

theorem map_bitsInt_intBits (l : List Int) (h : ∀ i ∈ l, -2147483648 ≤ i ∧ i < 2147483648) :
    (l.map intBits).map bitsInt = l := by
  rw [List.map_map]
  conv_rhs => rw [← List.map_id l]
  exact List.map_congr_left (fun i hi => bitsInt_intBits i (h i hi).1 (h i hi).2)

/-- The three files of a consistent mesh. -/
theorem cache_files (m : Mesh) (hc : Consistent m) :
    verticesFile m
        = some (le32 (intBits m.m_vertCount) ++ m.m_verts.flatMap (fun x => le32 x.bits))
      ∧ indicesFile m
        = some (le32 (intBits m.m_triCount) ++ m.m_tris.flatMap (fun i => le32 (intBits i)))
      ∧ normalsFile m
        = some (le32 (intBits (m.m_triCount * 3)) ++ m.m_normals.flatMap (fun x => le32 x.bits)) := by
  obtain ⟨⟨h1, h2⟩, h3⟩ := hc
  refine ⟨?_, ?_, ?_⟩
  · simp only [verticesFile, fwriteFloats_all m.m_verts _ h1, Option.map_some']
  · simp only [indicesFile, fwriteInts_all m.m_tris _ h2, Option.map_some']
  · simp only [normalsFile, fwriteFloats_all m.m_normals (m.m_triCount * 3) (by omega),
      Option.map_some']

/-- The save path on a consistent mesh when the three files can be opened. -/
theorem savePath_ok (canWrite : String → Bool) (name : String) (m : Mesh) (fs : FileSys)
    (hc : Consistent m)
    (hw1 : canWrite (name ++ ".vertices") = true) (hw2 : canWrite (name ++ ".indices") = true)
    (hw3 : canWrite (name ++ ".normals") = true) :
    savePath canWrite name m fs
      = some (true, ((fs.write (name ++ ".vertices")
            (le32 (intBits m.m_vertCount) ++ m.m_verts.flatMap (fun x => le32 x.bits))).write
          (name ++ ".indices")
            (le32 (intBits m.m_triCount) ++ m.m_tris.flatMap (fun i => le32 (intBits i)))).write
          (name ++ ".normals")
            (le32 (intBits (m.m_triCount * 3)) ++ m.m_normals.flatMap (fun x => le32 x.bits))) := by
  obtain ⟨f1, f2, f3⟩ := cache_files m hc
  simp [savePath, hw1, hw2, hw3, f1, f2, f3]

/-- Reading back the three files of a consistent mesh whose indices are in range. -/
theorem loadBinary_written (fs : FileSys) (name : String) (m m0 : Mesh)
    (hc : Consistent m) (hr : TrisInRange m)
    (hV : 3 * m.m_vertCount < 2147483648) (hT : 3 * m.m_triCount < 2147483648)
    (h1 : fs (name ++ ".vertices")
      = some (le32 (intBits m.m_vertCount) ++ m.m_verts.flatMap (fun x => le32 x.bits)))
    (h2 : fs (name ++ ".indices")
      = some (le32 (intBits m.m_triCount) ++ m.m_tris.flatMap (fun i => le32 (intBits i))))
    (h3 : fs (name ++ ".normals")
      = some (le32 (intBits (m.m_triCount * 3)) ++ m.m_normals.flatMap (fun x => le32 x.bits))) :
    loadBinary fs name m0
      = some (true, { m0 with m_verts := m.m_verts, m_tris := m.m_tris, m_normals := m.m_normals,
                              m_vertCount := m.m_vertCount, m_triCount := m.m_triCount }) := by
  obtain ⟨⟨c1, c2⟩, c3⟩ := hc
  have r1 := readRecords_written F32.bits (fun x => x.lt) m.m_verts m.m_vertCount c1 hV
  have r2 := readRecords_written intBits intBits_lt m.m_tris m.m_triCount c2 hT
  have r3 := readScalars_written F32.bits (fun x => x.lt) m.m_normals (m.m_triCount * 3)
    (by omega) (by omega)
  have hi : ∀ i ∈ m.m_tris, -2147483648 ≤ i ∧ i < 2147483648 := by
    intro i hi
    have := hr i hi
    omega
  simp only [loadBinary, h1, h2, h3, r1, r2, r3, map_ofBits_bits, map_bitsInt_intBits _ hi]

theorem write_same (fs : FileSys) (n : String) (b : List Nat) : (fs.write n b) n = some b := by
  simp [FileSys.write]

theorem write_other (fs : FileSys) (n n2 : String) (b : List Nat) (h : n2 ≠ n) :
    (fs.write n b) n2 = fs n2 := by
  simp [FileSys.write, h]

/-- A mesh produced by `load` from a fresh mesh is consistent and has its indices in range. -/
theorem loadBuffer_consistent (A : FloatArith) (name : String) (buf : List Char) (x y z : F32)
    (m : Mesh) (h : loadBuffer A name buf { mesh := Mesh.new, x := x, y := y, z := z } = some m) :
    Consistent m ∧ TrisInRange m := by
  obtain ⟨st, h1, hr, hc⟩ := loadParse_inv A (fun m => TrisInRange m ∧ CountsMatch m)
    (fun m x y z h => ⟨TrisInRange_addVertex m x y z h.1, CountsMatch_addVertex m x y z h.2⟩)
    (fun face i m h => ⟨TrisInRange_fanStep face i m h.1, CountsMatch_fanStep face i m h.2⟩)
    buf { mesh := Mesh.new, x := x, y := y, z := z }
    ⟨fun t ht => by simp [Mesh.new] at ht, by simp [CountsMatch, Mesh.new]⟩
  obtain ⟨ns, h2, h3⟩ := calcNormals_ok A st.mesh hc hr
  simp only [loadBuffer, h1, h2, Option.some.injEq] at h
  subst h
  exact ⟨⟨hc, h3⟩, hr⟩

/-- C6. Round trip of the binary cache: for every mesh `M` that `load` produces from a fresh
mesh, with `3 * m_vertCount` and `3 * m_triCount` within `int`, when the three files can be
opened the save path writes them, and `loadBinary` on the files so written returns `true`
with the vertex, triangle and normal arrays and both counts equal to those of `M`. -/
theorem cache_round_trip (A : FloatArith) (name : String) (buf : List Char) (x y z : F32)
    (M m0 : Mesh) (canWrite : String → Bool) (fs : FileSys)
    (hM : loadBuffer A name buf { mesh := Mesh.new, x := x, y := y, z := z } = some M)
    (hV : 3 * M.m_vertCount < 2147483648) (hT : 3 * M.m_triCount < 2147483648)
    (hw1 : canWrite (name ++ ".vertices") = true) (hw2 : canWrite (name ++ ".indices") = true)
    (hw3 : canWrite (name ++ ".normals") = true) :
    ∃ fs1 m1, savePath canWrite name M fs = some (true, fs1)
      ∧ loadBinary fs1 name m0 = some (true, m1)
      ∧ m1.m_verts = M.m_verts ∧ m1.m_tris = M.m_tris ∧ m1.m_normals = M.m_normals
      ∧ m1.m_vertCount = M.m_vertCount ∧ m1.m_triCount = M.m_triCount := by
  obtain ⟨hc, hr⟩ := loadBuffer_consistent A name buf x y z M hM
  refine ⟨_, { m0 with m_verts := M.m_verts, m_tris := M.m_tris, m_normals := M.m_normals,
                        m_vertCount := M.m_vertCount, m_triCount := M.m_triCount },
    savePath_ok canWrite name M fs hc hw1 hw2 hw3, ?_, rfl, rfl, rfl, rfl, rfl⟩
  have n12 : name ++ ".vertices" ≠ name ++ ".indices" := append_left_ne _ _ _ (by decide)
  have n13 : name ++ ".vertices" ≠ name ++ ".normals" := append_left_ne _ _ _ (by decide)
  have n23 : name ++ ".indices" ≠ name ++ ".normals" := append_left_ne _ _ _ (by decide)
  refine loadBinary_written _ name M m0 hc hr hV hT ?_ ?_ ?_
  · rw [write_other _ _ _ _ n13, write_other _ _ _ _ n12, write_same]
  · rw [write_other _ _ _ _ n23, write_same]
  · rw [write_same]

/-- Witness for C6: the quad example, saved to and read from an empty file
system. -/
theorem cache_round_trip_witness :
    ∃ fs1 m1, savePath (fun _ => true) "quad.obj" quadMesh emptyFileSys = some (true, fs1)
      ∧ loadBinary fs1 "quad.obj" Mesh.new = some (true, m1)
      ∧ m1.m_verts = quadMesh.m_verts ∧ m1.m_tris = quadMesh.m_tris
      ∧ m1.m_normals = quadMesh.m_normals
      ∧ m1.m_vertCount = quadMesh.m_vertCount ∧ m1.m_triCount = quadMesh.m_triCount :=
  cache_round_trip binary32 "quad.obj" quadText F32.zero F32.zero F32.zero quadMesh Mesh.new
    (fun _ => true) emptyFileSys quad_load.1 (by decide) (by decide) rfl rfl rfl

/-- C7. For a mesh whose array lengths match its counts `V` and `T` (with `V` and `3 * T`
within `int`), the save path writes a vertices file of `4 + 12 * V` bytes whose leading
`int` is `V`, an indices file of `4 + 12 * T` bytes whose leading `int` is `T`, and a
normals file of `4 + 12 * T` bytes whose leading `int` is `3 * T`, each followed by the
elements of its array in order, four bytes each, least significant first. -/
theorem cache_file_layout (m : Mesh) (canWrite : String → Bool) (name : String) (fs : FileSys)
    (hc : Consistent m) (hV : m.m_vertCount < 2147483648)
    (hT : 3 * m.m_triCount < 2147483648)
    (hw1 : canWrite (name ++ ".vertices") = true) (hw2 : canWrite (name ++ ".indices") = true)
    (hw3 : canWrite (name ++ ".normals") = true) :
    ∃ bv bi bn fs1, savePath canWrite name m fs = some (true, fs1)
      ∧ fs1 (name ++ ".vertices") = some bv ∧ fs1 (name ++ ".indices") = some bi
      ∧ fs1 (name ++ ".normals") = some bn
      ∧ (bv.length : Int) = 4 + 12 * m.m_vertCount ∧ freadCount bv = m.m_vertCount
      ∧ bv.drop 4 = m.m_verts.flatMap (fun x => le32 x.bits)
      ∧ (bi.length : Int) = 4 + 12 * m.m_triCount ∧ freadCount bi = m.m_triCount
      ∧ bi.drop 4 = m.m_tris.flatMap (fun i => le32 (intBits i))
      ∧ (bn.length : Int) = 4 + 12 * m.m_triCount ∧ freadCount bn = 3 * m.m_triCount
      ∧ bn.drop 4 = m.m_normals.flatMap (fun x => le32 x.bits) := by
  have n12 : name ++ ".vertices" ≠ name ++ ".indices" := append_left_ne _ _ _ (by decide)
  have n13 : name ++ ".vertices" ≠ name ++ ".normals" := append_left_ne _ _ _ (by decide)
  have n23 : name ++ ".indices" ≠ name ++ ".normals" := append_left_ne _ _ _ (by decide)
  have hs := savePath_ok canWrite name m fs hc hw1 hw2 hw3
  obtain ⟨⟨c1, c2⟩, c3⟩ := hc
  refine ⟨le32 (intBits m.m_vertCount) ++ m.m_verts.flatMap (fun x => le32 x.bits),
    le32 (intBits m.m_triCount) ++ m.m_tris.flatMap (fun i => le32 (intBits i)),
    le32 (intBits (m.m_triCount * 3)) ++ m.m_normals.flatMap (fun x => le32 x.bits),
    _, hs, ?_, ?_, ?_, ?_, ?_, ?_, ?_, ?_, ?_, ?_, ?_, ?_⟩
  · rw [write_other _ _ _ _ n13, write_other _ _ _ _ n12, write_same]
  · rw [write_other _ _ _ _ n23, write_same]
  · rw [write_same]
  · simp only [List.length_append, le32_length, flatMap_le32_length]
    push_cast; omega
  · exact freadCount_written _ (by omega) hV _
  · exact le32_append_drop _ _
  · simp only [List.length_append, le32_length, flatMap_le32_length]
    push_cast; omega
  · exact freadCount_written _ (by omega) (by omega) _
  · exact le32_append_drop _ _
  · simp only [List.length_append, le32_length, flatMap_le32_length]
    push_cast; omega
  · rw [freadCount_written _ (by omega) (by omega) _]; omega
  · exact le32_append_drop _ _

/-- Witness for C7: the mesh of the quad example. -/
theorem cache_file_layout_witness :
    ∃ bv bi bn fs1, savePath (fun _ => true) "quad.obj" quadMesh emptyFileSys = some (true, fs1)
      ∧ fs1 ("quad.obj" ++ ".vertices") = some bv ∧ fs1 ("quad.obj" ++ ".indices") = some bi
      ∧ fs1 ("quad.obj" ++ ".normals") = some bn
      ∧ (bv.length : Int) = 4 + 12 * quadMesh.m_vertCount ∧ freadCount bv = quadMesh.m_vertCount
      ∧ bv.drop 4 = quadMesh.m_verts.flatMap (fun x => le32 x.bits)
      ∧ (bi.length : Int) = 4 + 12 * quadMesh.m_triCount ∧ freadCount bi = quadMesh.m_triCount
      ∧ bi.drop 4 = quadMesh.m_tris.flatMap (fun i => le32 (intBits i))
      ∧ (bn.length : Int) = 4 + 12 * quadMesh.m_triCount
      ∧ freadCount bn = 3 * quadMesh.m_triCount
      ∧ bn.drop 4 = quadMesh.m_normals.flatMap (fun x => le32 x.bits) :=
  cache_file_layout quadMesh (fun _ => true) "quad.obj" emptyFileSys
    (by unfold Consistent CountsMatch; decide) (by decide) (by decide) rfl rfl rfl

/-- C8 (the code at the failing input).  With a vertices file that declares one vertex and
holds no payload, `loadBinary` returns `true`; the vertex it leaves is made of the zeros the
destination was sized with. -/
theorem loadBinary_accepts_short_file :
    loadBinary shortCache "m" Mesh.new
      = some (true, { Mesh.new with m_vertCount := 1
                                    m_verts := [F32.zero, F32.zero, F32.zero] }) := by
  decide

/-- C9 (as stated, refuted).  With a vertices file and no indices file `loadBinary` returns
`false` after it has replaced the vertex array and the vertex count. -/
theorem loadBinary_failure_replaces_vertices :
    loadBinary verticesOnlyCache "m" Mesh.new
        = some (false, { Mesh.new with m_vertCount := 1
                                       m_verts := [F32.one, F32.one, F32.one] })
      ∧ ({ Mesh.new with m_vertCount := 1, m_verts := [F32.one, F32.one, F32.one] } : Mesh).m_verts
        ≠ Mesh.new.m_verts := by
  decide

/-- C9 (amended).  When `loadBinary` returns `false` one of the three files could not be
opened, and the mesh is left as follows.  The vertices file could not be opened: the mesh is
as before.  The vertices file was read and the indices file could not be opened: the vertex
count and the vertex array have been replaced by what the vertices file holds, the rest is
as before.  Both were read and the normals file could not be opened: the vertex and triangle
counts and arrays have been replaced, the rest is as before.  In every case the normal
array, the file name and the scale are as before. -/
theorem loadBinary_failure_frame (fs : FileSys) (name : String) (m m1 : Mesh)
    (h : loadBinary fs name m = some (false, m1)) :
    ((fs (name ++ ".vertices") = none ∧ m1 = m)
      ∨ (∃ fv, fs (name ++ ".vertices") = some fv ∧ fs (name ++ ".indices") = none
          ∧ m1 = { m with
              m_vertCount := freadCount fv
              m_verts := (freadWords (freadCount fv * 3).toNat (fv.drop 4)).map F32.ofBits })
      ∨ (∃ fv fi, fs (name ++ ".vertices") = some fv ∧ fs (name ++ ".indices") = some fi
          ∧ fs (name ++ ".normals") = none
          ∧ m1 = { m with
              m_vertCount := freadCount fv
              m_verts := (freadWords (freadCount fv * 3).toNat (fv.drop 4)).map F32.ofBits
              m_triCount := freadCount fi
              m_tris := (freadWords (freadCount fi * 3).toNat (fi.drop 4)).map bitsInt }))
      ∧ m1.m_normals = m.m_normals ∧ m1.m_filename = m.m_filename ∧ m1.m_scale = m.m_scale
      ∧ (fs (name ++ ".vertices") = none → m1 = m)
      ∧ (fs (name ++ ".indices") = none → m1.m_tris = m.m_tris ∧ m1.m_triCount = m.m_triCount) := by
  cases hv : fs (name ++ ".vertices") with
  | none =>
    simp only [loadBinary, hv, Option.some.injEq, Prod.mk.injEq, true_and] at h
    subst h
    simp
  | some fv =>
    cases hrv : readRecords fv with
    | none => simp [loadBinary, hv, hrv] at h
    | some rv =>
      have hrv2 : rv = (freadCount fv, freadWords (freadCount fv * 3).toNat (fv.drop 4)) := by
        unfold readRecords at hrv
        simp only [] at hrv
        split at hrv
        · exact (Option.some.inj hrv).symm
        · cases hrv
      subst hrv2
      cases hi : fs (name ++ ".indices") with
      | none =>
        simp only [loadBinary, hv, hrv, hi, Option.some.injEq, Prod.mk.injEq, true_and] at h
        subst h
        simp
      | some fi =>
        cases hri : readRecords fi with
        | none => simp [loadBinary, hv, hrv, hi, hri] at h
        | some ri =>
          have hri2 : ri
              = (freadCount fi, freadWords (freadCount fi * 3).toNat (fi.drop 4)) := by
            unfold readRecords at hri
            simp only [] at hri
            split at hri
            · exact (Option.some.inj hri).symm
            · cases hri
          subst hri2
          cases hn : fs (name ++ ".normals") with
          | none =>
            simp only [loadBinary, hv, hrv, hi, hri, hn, Option.some.injEq, Prod.mk.injEq,
              true_and] at h
            subst h
            simp
          | some fn =>
            cases hrn : readScalars fn with
            | none => simp [loadBinary, hv, hrv, hi, hri, hn, hrn] at h
            | some no => simp [loadBinary, hv, hrv, hi, hri, hn, hrn] at h

/-- Witness for C9 (amended): on the quad mesh, with a vertices file and an indices file
and no normals file, the call returns `false` with the vertices and the triangles replaced
and the two normals of the quad left in place. -/
theorem loadBinary_failure_frame_witness :
    loadBinary noNormalsCache "m" quadMesh = some (false, quadHalfLoaded)
      ∧ quadHalfLoaded.m_verts ≠ quadMesh.m_verts
      ∧ ((noNormalsCache ("m" ++ ".vertices") = none ∧ quadHalfLoaded = quadMesh)
        ∨ (∃ fv, noNormalsCache ("m" ++ ".vertices") = some fv
            ∧ noNormalsCache ("m" ++ ".indices") = none
            ∧ quadHalfLoaded = { quadMesh with
                m_vertCount := freadCount fv
                m_verts := (freadWords (freadCount fv * 3).toNat (fv.drop 4)).map F32.ofBits })
        ∨ (∃ fv fi, noNormalsCache ("m" ++ ".vertices") = some fv
            ∧ noNormalsCache ("m" ++ ".indices") = some fi
            ∧ noNormalsCache ("m" ++ ".normals") = none
            ∧ quadHalfLoaded = { quadMesh with
                m_vertCount := freadCount fv
                m_verts := (freadWords (freadCount fv * 3).toNat (fv.drop 4)).map F32.ofBits
                m_triCount := freadCount fi
                m_tris := (freadWords (freadCount fi * 3).toNat (fi.drop 4)).map bitsInt }))
      ∧ quadHalfLoaded.m_normals = quadMesh.m_normals
      ∧ quadHalfLoaded.m_filename = quadMesh.m_filename
      ∧ quadHalfLoaded.m_scale = quadMesh.m_scale
      ∧ (noNormalsCache ("m" ++ ".vertices") = none → quadHalfLoaded = quadMesh)
      ∧ (noNormalsCache ("m" ++ ".indices") = none →
          quadHalfLoaded.m_tris = quadMesh.m_tris
            ∧ quadHalfLoaded.m_triCount = quadMesh.m_triCount) :=
  ⟨by decide, by decide,
    loadBinary_failure_frame noNormalsCache "m" quadMesh quadHalfLoaded (by decide)⟩

/-! ## Lemmas on parseRow -/

theorem parseRowLoop_dropped (len : Int) (c : Char) (buf : List Char) (start : Bool)
    (row : List Char) (h : isDropped c = true) :
    parseRowLoop len (c :: buf) start row = parseRowLoop len buf start row := by
  have : c = '\\' ∨ c = '\r' := by simpa [isDropped] using h
  rcases this with rfl | rfl
  · simp [parseRowLoop]
  · have h1 : ¬ ('\r' = '\\') := by decide
    have h2 : ¬ ('\r' = '\n') := by decide
    simp [parseRowLoop, h1, h2]

theorem parseRowLoop_lf_start (len : Int) (buf : List Char) (row : List Char) :
    parseRowLoop len ('\n' :: buf) true row = parseRowLoop len buf true row := by
  have h1 : ¬ ('\n' = '\\') := by decide
  simp [parseRowLoop, h1]

theorem parseRowLoop_lf (len : Int) (buf : List Char) (row : List Char) :
    parseRowLoop len ('\n' :: buf) false row = (row, buf) := by
  have h1 : ¬ ('\n' = '\\') := by decide
  simp [parseRowLoop, h1]

theorem parseRowLoop_lead_start (len : Int) (c : Char) (buf : List Char) (row : List Char)
    (h : isLead c = true) :
    parseRowLoop len (c :: buf) true row = parseRowLoop len buf true row := by
  have : c = ' ' ∨ c = '\t' ∨ c = '\n' := by simpa [isLead, or_assoc] using h
  rcases this with rfl | rfl | rfl
  · have h1 : ¬ (' ' = '\\') := by decide
    have h2 : ¬ (' ' = '\n') := by decide
    have h3 : ¬ (' ' = '\r') := by decide
    simp [parseRowLoop, h1, h2, h3]
  · have h1 : ¬ ('\t' = '\\') := by decide
    have h2 : ¬ ('\t' = '\n') := by decide
    have h3 : ¬ ('\t' = '\r') := by decide
    simp [parseRowLoop, h1, h2, h3]
  · exact parseRowLoop_lf_start len buf row

/-- The `default` branch: the character is copied. -/
theorem parseRowLoop_store (len : Int) (c : Char) (buf : List Char) (start : Bool)
    (row : List Char) (hd : isDropped c = false) (hn : c ≠ '\n')
    (hs : start = false ∨ isLead c = false) :
    parseRowLoop len (c :: buf) start row =
      if (row.length : Int) + 1 ≥ len - 1 then (row ++ [c], buf)
      else parseRowLoop len buf false (row ++ [c]) := by
  have hd2 : c ≠ '\\' ∧ c ≠ '\r' := by simpa [isDropped] using hd
  have hb : ¬ ((c = '\t' ∨ c = ' ') ∧ start = true) := by
    rintro ⟨hc, hst⟩
    rcases hs with hs | hs
    · rw [hs] at hst; cases hst
    · rcases hc with rfl | rfl <;> simp [isLead] at hs
  rw [parseRowLoop, if_neg hd2.1, if_neg hn, if_neg hd2.2, if_neg hb]

/-- The characters copied by the loop once something has been copied. -/
theorem parseRowLoop_row_false (len : Int) :
    ∀ (buf row : List Char), (row.length : Int) < len - 1 →
      (parseRowLoop len buf false row).1
        = row ++ (((buf.filter (fun c => !isDropped c)).takeWhile (fun c => c != '\n')).take
            ((len - 1).toNat - row.length)) := by
  intro buf
  induction buf with
  | nil => intro row _; simp [parseRowLoop]
  | cons c buf ih =>
    intro row hrow
    by_cases hd : isDropped c = true
    · rw [parseRowLoop_dropped len c buf false row hd, ih row hrow]
      simp [List.filter_cons, hd]
    · have hd' : isDropped c = false := by simpa using hd
      by_cases hn : c = '\n'
      · subst hn
        rw [parseRowLoop_lf]
        simp [List.filter_cons, hd', List.takeWhile_cons]
      · rw [parseRowLoop_store len c buf false row hd' hn (Or.inl rfl)]
        have hk : (len - 1).toNat - row.length = ((len - 1).toNat - (row.length + 1)) + 1 := by
          omega
        have hf : ((c :: buf).filter (fun c => !isDropped c)).takeWhile (fun c => c != '\n')
            = c :: ((buf.filter (fun c => !isDropped c)).takeWhile (fun c => c != '\n')) := by
          simp [List.filter_cons, hd', List.takeWhile_cons, hn]
        rw [hf, hk, List.take_succ_cons]
        split
        · rename_i hfull
          have h0 : (len - 1).toNat - (row.length + 1) = 0 := by omega
          rw [h0, List.take_zero]
        · rename_i hfull
          have hlt : ((row ++ [c]).length : Int) < len - 1 := by
            simp only [List.length_append, List.length_singleton]; push_cast; omega
          rw [ih (row ++ [c]) hlt]
          simp

/-- The row `parseRow` produces is the reference row. -/
theorem parseRowLoop_row_true (len : Int) (hlen : 2 ≤ len) :
    ∀ (buf : List Char), (parseRowLoop len buf true []).1 = parseRowRef buf len := by
  intro buf
  induction buf with
  | nil => simp [parseRowLoop, parseRowRef]
  | cons c buf ih =>
    by_cases hd : isDropped c = true
    · rw [parseRowLoop_dropped len c buf true [] hd, ih]
      simp [parseRowRef, List.filter_cons, hd]
    · have hd' : isDropped c = false := by simpa using hd
      by_cases hl : isLead c = true
      · rw [parseRowLoop_lead_start len c buf [] hl, ih]
        simp [parseRowRef, List.filter_cons, hd', List.dropWhile_cons, hl]
      · have hl' : isLead c = false := by simpa using hl
        have hn : c ≠ '\n' := by
          rintro rfl; simp [isLead] at hl'
        rw [parseRowLoop_store len c buf true [] hd' hn (Or.inr hl')]
        have hf : parseRowRef (c :: buf) len
            = (c :: ((buf.filter (fun c => !isDropped c)).takeWhile (fun c => c != '\n'))).take
                (len - 1).toNat := by
          simp [parseRowRef, List.filter_cons, hd', List.dropWhile_cons, hl',
            List.takeWhile_cons, hn]
        have hk : (len - 1).toNat = ((len - 1).toNat - 1) + 1 := by omega
        rw [hf, hk, List.take_succ_cons]
        split
        · rename_i hfull
          have h0 : (len - 1).toNat - 1 = 0 := by
            simp only [List.length_nil] at hfull; omega
          rw [h0, List.take_zero]
          rfl
        · rename_i hfull
          have hlt : (([] ++ [c] : List Char).length : Int) < len - 1 := by
            simp only [List.length_nil] at hfull
            simp only [List.nil_append, List.length_singleton]; push_cast; omega
          rw [parseRowLoop_row_false len buf ([] ++ [c]) hlt]
          simp

/-- Every character is dropped, is a line feed, or is copied (unless it is a leading blank). -/
theorem char_cases (c : Char) :
    isDropped c = true ∨ c = '\n' ∨ (isDropped c = false ∧ c ≠ '\n') := by
  by_cases hd : isDropped c = true
  · exact Or.inl hd
  · by_cases hn : c = '\n'
    · exact Or.inr (Or.inl hn)
    · exact Or.inr (Or.inr ⟨by simpa using hd, hn⟩)

/-- The cursor `parseRow` returns lies inside the buffer: it is a suffix of it. -/
theorem parseRowLoop_suffix (len : Int) :
    ∀ (buf : List Char) (start : Bool) (row : List Char),
      (parseRowLoop len buf start row).2 <:+ buf := by
  intro buf
  induction buf with
  | nil => intro start row; simp [parseRowLoop]
  | cons c buf ih =>
    intro start row
    have hs : buf <:+ c :: buf := List.suffix_cons c buf
    rcases char_cases c with hd | rfl | ⟨hd, hn⟩
    · rw [parseRowLoop_dropped len c buf start row hd]
      exact (ih start row).trans hs
    · cases start
      · rw [parseRowLoop_lf]; exact hs
      · rw [parseRowLoop_lf_start]; exact (ih true row).trans hs
    · by_cases hl : start = true ∧ isLead c = true
      · obtain ⟨rfl, hl⟩ := hl
        rw [parseRowLoop_lead_start len c buf row hl]
        exact (ih true row).trans hs
      · have hs2 : start = false ∨ isLead c = false := by
          cases start <;> simp at hl ⊢
          exact hl
        rw [parseRowLoop_store len c buf start row hd hn hs2]
        split
        · exact hs
        · exact (ih false _).trans hs

/-- The characters already stored stay at the front of the row. -/
theorem parseRowLoop_row_prefix (len : Int) :
    ∀ (buf : List Char) (start : Bool) (row : List Char),
      row <+: (parseRowLoop len buf start row).1 := by
  intro buf
  induction buf with
  | nil => intro start row; simp [parseRowLoop]
  | cons c buf ih =>
    intro start row
    rcases char_cases c with hd | rfl | ⟨hd, hn⟩
    · rw [parseRowLoop_dropped len c buf start row hd]; exact ih start row
    · cases start
      · rw [parseRowLoop_lf]
      · rw [parseRowLoop_lf_start]; exact ih true row
    · by_cases hl : start = true ∧ isLead c = true
      · obtain ⟨rfl, hl⟩ := hl
        rw [parseRowLoop_lead_start len c buf row hl]
        exact ih true row
      · have hs2 : start = false ∨ isLead c = false := by
          cases start <;> simp at hl ⊢
          exact hl
        rw [parseRowLoop_store len c buf start row hd hn hs2]
        split
        · exact List.prefix_append row [c]
        · exact (List.prefix_append row [c]).trans (ih false _)

/-- A call that stores nothing has read the buffer to its end. -/
theorem parseRowLoop_empty_row (len : Int) :
    ∀ (buf : List Char), (parseRowLoop len buf true []).1 = [] →
      (parseRowLoop len buf true []).2 = [] := by
  intro buf
  induction buf with
  | nil => intro _; simp [parseRowLoop]
  | cons c buf ih =>
    intro h
    rcases char_cases c with hd | rfl | ⟨hd, hn⟩
    · rw [parseRowLoop_dropped len c buf true [] hd] at h ⊢; exact ih h
    · rw [parseRowLoop_lf_start] at h ⊢; exact ih h
    · by_cases hl : isLead c = true
      · rw [parseRowLoop_lead_start len c buf [] hl] at h ⊢; exact ih h
      · exfalso
        rw [parseRowLoop_store len c buf true [] hd hn (Or.inr (by simpa using hl))] at h
        split at h
        · simp at h
        · have := parseRowLoop_row_prefix len buf false ([] ++ [c])
          rw [h] at this
          simp at this

/-- Characters skipped while nothing has been copied do not show in the result. -/
theorem parseRowLoop_skip (len : Int) (rest row : List Char) :
    ∀ (lead : List Char), (∀ c ∈ lead, isDropped c = true ∨ isLead c = true) →
      parseRowLoop len (lead ++ rest) true row = parseRowLoop len rest true row := by
  intro lead
  induction lead with
  | nil => intro _; rfl
  | cons c lead ih =>
    intro h
    have ih2 := ih (fun e he => h e (List.mem_cons_of_mem _ he))
    rcases h c (List.mem_cons_self _ _) with hd | hl
    · rw [List.cons_append, parseRowLoop_dropped len c _ true row hd, ih2]
    · rw [List.cons_append, parseRowLoop_lead_start len c _ row hl, ih2]

/-- A line feed read after something has been copied ends the row: the row holds the
copied characters that precede it and the cursor is just past it. -/
theorem parseRowLoop_until_lf (len : Int) (post : List Char) :
    ∀ (body row : List Char), '\n' ∉ body →
      (row.length : Int) + ((body.filter (fun c => !isDropped c)).length : Int) < len - 1 →
      parseRowLoop len (body ++ '\n' :: post) false row
        = (row ++ body.filter (fun c => !isDropped c), post) := by
  intro body
  induction body with
  | nil => intro row _ _; simp [parseRowLoop_lf]
  | cons c body ih =>
    intro row hnl hlen
    have hnl2 : '\n' ∉ body := fun h => hnl (List.mem_cons_of_mem _ h)
    have hc : c ≠ '\n' := fun h => hnl (by rw [h]; exact List.mem_cons_self _ _)
    by_cases hd : isDropped c = true
    · have hlen2 : (row.length : Int) + ((body.filter (fun c => !isDropped c)).length : Int)
          < len - 1 := by
        simpa [List.filter_cons, hd] using hlen
      rw [List.cons_append, parseRowLoop_dropped len c _ false row hd, ih row hnl2 hlen2]
      simp [List.filter_cons, hd]
    · have hd' : isDropped c = false := by simpa using hd
      have hlen2 : (row.length : Int) + 1
          + ((body.filter (fun c => !isDropped c)).length : Int) < len - 1 := by
        have := hlen
        simp only [List.filter_cons, hd', Bool.not_false, if_true, List.length_cons] at this
        push_cast at this
        omega
      rw [List.cons_append, parseRowLoop_store len c _ false row hd' hc (Or.inl rfl),
        if_neg (by omega)]
      rw [ih (row ++ [c]) hnl2 (by
        simp only [List.length_append, List.length_singleton]; push_cast; omega)]
      simp [List.filter_cons, hd']

/-- Truncation: when the copied characters fill the row, the call ends right after the
last of them; only dropped characters may stand between the cursor and the rest. -/
theorem parseRowLoop_fill (len : Int) (rest : List Char) :
    ∀ (body row : List Char), '\n' ∉ body →
      (row.length : Int) + ((body.filter (fun c => !isDropped c)).length : Int) = len - 1 →
      body.filter (fun c => !isDropped c) ≠ [] →
      ∃ tail, (∀ c ∈ tail, isDropped c = true)
        ∧ parseRowLoop len (body ++ rest) false row
          = (row ++ body.filter (fun c => !isDropped c), tail ++ rest) := by
  intro body
  induction body with
  | nil => intro row _ _ hne; simp at hne
  | cons c body ih =>
    intro row hnl hlen hne
    have hnl2 : '\n' ∉ body := fun h => hnl (List.mem_cons_of_mem _ h)
    have hc : c ≠ '\n' := fun h => hnl (by rw [h]; exact List.mem_cons_self _ _)
    by_cases hd : isDropped c = true
    · have hf : (c :: body).filter (fun c => !isDropped c)
          = body.filter (fun c => !isDropped c) := by simp [List.filter_cons, hd]
      rw [hf] at hlen hne ⊢
      rw [List.cons_append, parseRowLoop_dropped len c _ false row hd]
      exact ih row hnl2 hlen hne
    · have hd' : isDropped c = false := by simpa using hd
      have hf : (c :: body).filter (fun c => !isDropped c)
          = c :: body.filter (fun c => !isDropped c) := by simp [List.filter_cons, hd']
      rw [hf] at hlen ⊢
      simp only [List.length_cons] at hlen
      push_cast at hlen
      rw [List.cons_append, parseRowLoop_store len c _ false row hd' hc (Or.inl rfl)]
      by_cases hb : body.filter (fun c => !isDropped c) = []
      · rw [hb] at hlen ⊢
        simp only [List.length_nil] at hlen
        rw [if_pos (by push_cast at hlen ⊢; omega)]
        refine ⟨body, ?_, rfl⟩
        intro e he
        by_contra hne2
        have : e ∈ body.filter (fun c => !isDropped c) :=
          List.mem_filter.2 ⟨he, by simpa using hne2⟩
        rw [hb] at this
        simp at this
      · have hpos : 0 < (body.filter (fun c => !isDropped c)).length :=
          List.length_pos.2 hb
        rw [if_neg (by omega)]
        obtain ⟨tail, ht, he⟩ := ih (row ++ [c]) hnl2 (by
          simp only [List.length_append, List.length_singleton]; push_cast; omega) hb
        exact ⟨tail, ht, by rw [he]; simp⟩

/-! ## Lemmas on the rows of the parse loop -/

theorem loadLoop_cons (A : FloatArith) (fuel : Nat) (c : Char) (cs : List Char) (st : LoadState) :
    loadLoop A (fuel + 1) (c :: cs) st
      = (loadRow A (parseRow (c :: cs) 512).1 st).bind
          (fun st1 => loadLoop A fuel (parseRow (c :: cs) 512).2 st1) := by
  rw [loadLoop]
  cases loadRow A (parseRow (c :: cs) 512).1 st <;> rfl

/-- The result of the parse loop does not depend on the fuel once it covers the buffer. -/
theorem loadLoop_fuel (A : FloatArith) :
    ∀ (f1 f2 : Nat) (buf : List Char) (st : LoadState), buf.length ≤ f1 → buf.length ≤ f2 →
      loadLoop A f1 buf st = loadLoop A f2 buf st := by
  intro f1
  induction f1 with
  | zero =>
    intro f2 buf st h1 _
    cases buf with
    | nil => cases f2 <;> simp [loadLoop]
    | cons c cs => simp at h1
  | succ f1 ih =>
    intro f2 buf st h1 h2
    cases buf with
    | nil => cases f2 <;> simp [loadLoop]
    | cons c cs =>
      cases f2 with
      | zero => simp at h2
      | succ f2 =>
        have hlen := parseRow_length_lt c cs 512
        simp only [List.length_cons] at h1 h2
        rw [loadLoop_cons, loadLoop_cons]
        congr 1
        funext st1
        exact ih f2 _ st1 (by omega) (by omega)

theorem loadParse_nil (A : FloatArith) (st : LoadState) : loadParse A [] st = some st := by
  simp [loadParse, loadLoop]

/-- One turn of the parse loop. -/
theorem loadParse_cons (A : FloatArith) (c : Char) (cs : List Char) (st : LoadState) :
    loadParse A (c :: cs) st
      = (loadRow A (parseRow (c :: cs) 512).1 st).bind
          (fun st1 => loadParse A (parseRow (c :: cs) 512).2 st1) := by
  unfold loadParse
  rw [List.length_cons, loadLoop_cons]
  congr 1
  funext st1
  exact loadLoop_fuel A _ _ _ st1 (parseRow_length_lt c cs 512) (Nat.le_refl _)

theorem loadRow_nil (A : FloatArith) (st : LoadState) : loadRow A [] st = some st := by
  have h0 : ¬ rowAt [] 0 = '#' := by decide
  have h1 : ¬ (rowAt [] 0 = 'v' ∧ rowAt [] 1 ≠ 'n' ∧ rowAt [] 1 ≠ 't') := by decide
  have h2 : ¬ rowAt [] 0 = 'f' := by decide
  simp only [loadRow, loadVertex, if_neg h0, if_neg h1, if_neg h2]

theorem loadRow_comment (A : FloatArith) (row : List Char) (st : LoadState) :
    loadRow A ('#' :: row) st = some st := by
  have h0 : rowAt ('#' :: row) 0 = '#' := rfl
  simp only [loadRow, h0, if_true]

/-- A buffer made of characters that are skipped while nothing has been copied, followed by
`rest`, is parsed like `rest`. -/
theorem loadParse_skip (A : FloatArith) (lead rest : List Char) (st : LoadState)
    (hlead : ∀ c ∈ lead, isDropped c = true ∨ isLead c = true) :
    loadParse A (lead ++ rest) st = loadParse A rest st := by
  cases hl : lead ++ rest with
  | nil =>
    have : rest = [] := (List.append_eq_nil.1 hl).2
    rw [this]
  | cons c cs =>
    rw [loadParse_cons, ← hl]
    have hp : parseRow (lead ++ rest) 512 = parseRow rest 512 :=
      parseRowLoop_skip 512 rest [] lead hlead
    rw [hp]
    cases rest with
    | nil =>
      have : parseRow [] 512 = ([], []) := rfl
      rw [this, loadRow_nil]
      rfl
    | cons d ds => rw [loadParse_cons]

/-- A prefix that ends with a line feed is either left by the call inside it, or run through
with nothing copied. -/
theorem parseRowLoop_split (len : Int) (X : List Char) :
    ∀ (p : List Char) (start : Bool) (row : List Char),
      (parseRowLoop len (p ++ '\n' :: X) start row
          = ((parseRowLoop len (p ++ ['\n']) start row).1,
             (parseRowLoop len (p ++ ['\n']) start row).2 ++ X)
        ∧ ((parseRowLoop len (p ++ ['\n']) start row).2 = []
            ∨ ∃ q, (parseRowLoop len (p ++ ['\n']) start row).2 = q ++ ['\n']))
      ∨ (start = true
        ∧ parseRowLoop len (p ++ '\n' :: X) start row = parseRowLoop len X true row
        ∧ parseRowLoop len (p ++ ['\n']) start row = (row, [])) := by
  intro p
  induction p with
  | nil =>
    intro start row
    cases start
    · left
      simp [parseRowLoop_lf]
    · right
      simp [parseRowLoop_lf_start, parseRowLoop]
  | cons c p ih =>
    intro start row
    simp only [List.cons_append]
    rcases char_cases c with hd | rfl | ⟨hd, hn⟩
    · rw [parseRowLoop_dropped len c _ start row hd, parseRowLoop_dropped len c _ start row hd]
      exact ih start row
    · cases start
      · left
        rw [parseRowLoop_lf, parseRowLoop_lf]
        exact ⟨by simp, Or.inr ⟨p, rfl⟩⟩
      · rw [parseRowLoop_lf_start, parseRowLoop_lf_start]
        exact ih true row
    · by_cases hl : start = true ∧ isLead c = true
      · obtain ⟨rfl, hl⟩ := hl
        rw [parseRowLoop_lead_start len c _ row hl, parseRowLoop_lead_start len c _ row hl]
        exact ih true row
      · have hs2 : start = false ∨ isLead c = false := by
          cases start <;> simp at hl ⊢
          exact hl
        rw [parseRowLoop_store len c _ start row hd hn hs2,
          parseRowLoop_store len c _ start row hd hn hs2]
        left
        split
        · exact ⟨by simp, Or.inr ⟨p, rfl⟩⟩
        · rcases ih false (row ++ [c]) with h | ⟨h, _, _⟩
          · exact h
          · cases h

/-- A buffer that ends with a line feed (or is empty) is parsed on its own: what follows it
is parsed from the state it leaves. -/
theorem loadParse_append (A : FloatArith) (X : List Char) :
    ∀ (n : Nat) (pre : List Char) (st : LoadState), pre.length ≤ n →
      (pre = [] ∨ ∃ p, pre = p ++ ['\n']) →
      loadParse A (pre ++ X) st = (loadParse A pre st).bind (fun st1 => loadParse A X st1) := by
  intro n
  induction n with
  | zero =>
    intro pre st hn _
    have : pre = [] := List.length_eq_zero.1 (Nat.le_zero.1 hn)
    subst this
    simp [loadParse_nil]
  | succ n ih =>
    intro pre st hn hpre
    rcases hpre with rfl | ⟨p, rfl⟩
    · simp [loadParse_nil]
    · have hassoc : p ++ ['\n'] ++ X = p ++ '\n' :: X := by simp
      rw [hassoc]
      rcases parseRowLoop_split 512 X p true [] with ⟨h1, h2⟩ | ⟨_, h1, h2⟩
      · -- the first call ends inside the prefix
        have hne : ∃ c cs, p ++ ['\n'] = c :: cs := by
          cases p with
          | nil => exact ⟨_, _, rfl⟩
          | cons a l => exact ⟨_, _, rfl⟩
        obtain ⟨c, cs, hcs⟩ := hne
        have hne2 : p ++ '\n' :: X = c :: (cs ++ X) := by
          rw [← hassoc, hcs]; rfl
        have hrow2 : parseRow (c :: (cs ++ X)) 512
            = ((parseRow (c :: cs) 512).1, (parseRow (c :: cs) 512).2 ++ X) := by
          unfold parseRow
          rw [← hne2, ← hcs]
          exact h1
        have hlen := parseRow_length_lt c cs 512
        have hlen2 : (parseRow (c :: cs) 512).2.length ≤ n := by
          have : (c :: cs).length ≤ n + 1 := by rw [← hcs]; exact hn
          simp only [List.length_cons] at this
          omega
        have hsuf : (parseRow (c :: cs) 512).2 = []
            ∨ ∃ q, (parseRow (c :: cs) 512).2 = q ++ ['\n'] := by
          unfold parseRow
          rw [← hcs]
          exact h2
        rw [hne2, hcs, loadParse_cons, loadParse_cons, hrow2, Option.bind_assoc]
        congr 1
        funext st1
        exact ih _ st1 hlen2 hsuf
      · -- the prefix is run through with nothing copied
        have hpre : loadParse A (p ++ ['\n']) st = some st := by
          cases hp : p ++ ['\n'] with
          | nil => exact loadParse_nil A st
          | cons c cs =>
            have : parseRow (c :: cs) 512 = ([], []) := by
              unfold parseRow; rw [← hp]; exact h2
            rw [loadParse_cons, this, loadRow_nil]
            exact loadParse_nil A st
        rw [hpre, Option.some_bind]
        cases hx : p ++ '\n' :: X with
        | nil => simp at hx
        | cons c cs =>
          have hrow : parseRow (c :: cs) 512 = parseRow X 512 := by
            unfold parseRow; rw [← hx]; exact h1
          rw [loadParse_cons, hrow]
          cases X with
          | nil =>
            have : parseRow [] 512 = ([], []) := rfl
            rw [this, loadRow_nil]
            rfl
          | cons d ds => rw [loadParse_cons]

/-- A comment line whose row fits, or just fills, the row buffer leaves the state as it
is. -/
theorem loadParse_comment_line (A : FloatArith) (comment post : List Char) (st : LoadState)
    (hn : '\n' ∉ comment)
    (hlen : (comment.filter (fun c => !isDropped c)).length ≤ 510) :
    loadParse A ('#' :: comment ++ '\n' :: post) st = loadParse A post st := by
  have hd : isDropped '#' = false := by decide
  have hc : '#' ≠ '\n' := by decide
  have hl : isLead '#' = false := by decide
  rw [List.cons_append, loadParse_cons]
  by_cases hfit : (comment.filter (fun c => !isDropped c)).length < 510
  · have hrow : parseRow ('#' :: (comment ++ '\n' :: post)) 512
        = ('#' :: comment.filter (fun c => !isDropped c), post) := by
      unfold parseRow
      rw [parseRowLoop_store 512 '#' _ true [] hd hc (Or.inr hl),
        if_neg (by simp only [List.length_nil]; decide)]
      rw [parseRowLoop_until_lf 512 post comment ([] ++ ['#']) hn (by
        simp only [List.nil_append, List.length_singleton]; push_cast; omega)]
      simp
    rw [hrow, loadRow_comment]
    rfl
  · have hfull : (comment.filter (fun c => !isDropped c)).length = 510 := by omega
    have hne : comment.filter (fun c => !isDropped c) ≠ [] := by
      intro h; rw [h] at hfull; simp at hfull
    obtain ⟨tail, ht, he⟩ := parseRowLoop_fill 512 ('\n' :: post) comment ([] ++ ['#']) hn (by
      simp only [List.nil_append, List.length_singleton]; push_cast; omega) hne
    have hrow : parseRow ('#' :: (comment ++ '\n' :: post)) 512
        = ('#' :: comment.filter (fun c => !isDropped c), tail ++ '\n' :: post) := by
      unfold parseRow
      rw [parseRowLoop_store 512 '#' _ true [] hd hc (Or.inr hl),
        if_neg (by simp only [List.length_nil]; decide), he]
      simp
    rw [hrow, loadRow_comment, Option.some_bind]
    have hskip : ∀ c ∈ tail ++ ['\n'], isDropped c = true ∨ isLead c = true := by
      intro c hc
      rcases List.mem_append.1 hc with h | h
      · exact Or.inl (ht c h)
      · rw [List.mem_singleton.1 h]; exact Or.inr (by decide)
    have := loadParse_skip A (tail ++ ['\n']) post st hskip
    simpa using this

/-! ## More lemmas on the normal pass -/

theorem normalStep_eq (A : FloatArith) (i : Nat) (m : Mesh) :
    normalStep A i m = (normalAt A m i).map (fun n =>
      { m with m_normals := ((m.m_normals.set i n.1).set (i + 1) n.2.1).set (i + 2) n.2.2 }) := by
  unfold normalStep normalAt
  cases m.m_tris[i]? <;> cases m.m_tris[i + 1]? <;> cases m.m_tris[i + 2]? <;> try rfl
  rename_i t0 t1 t2
  simp only []
  cases vert3 m t0 <;> cases vert3 m t1 <;> cases vert3 m t2 <;> rfl

theorem normalAt_set_normals (A : FloatArith) (m : Mesh) (ns : List F32) (i : Nat) :
    normalAt A { m with m_normals := ns } i = normalAt A m i := rfl

theorem set3_get (l : List F32) (i : Nat) (a b c : F32) (h : i + 2 < l.length) :
    (((l.set i a).set (i + 1) b).set (i + 2) c)[i]? = some a
      ∧ (((l.set i a).set (i + 1) b).set (i + 2) c)[i + 1]? = some b
      ∧ (((l.set i a).set (i + 1) b).set (i + 2) c)[i + 2]? = some c
      ∧ ∀ p, p < i → (((l.set i a).set (i + 1) b).set (i + 2) c)[p]? = l[p]? := by
  refine ⟨?_, ?_, ?_, ?_⟩
  · rw [List.getElem?_set_ne (by omega), List.getElem?_set_ne (by omega),
      List.getElem?_set_self (by omega)]
  · rw [List.getElem?_set_ne (by omega), List.getElem?_set_self (by simp; omega)]
  · rw [List.getElem?_set_self (by simp; omega)]
  · intro p hp
    rw [List.getElem?_set_ne (by omega), List.getElem?_set_ne (by omega),
      List.getElem?_set_ne (by omega)]

/-- What the normal loop leaves: only the normals change, their number stays, the entries
below `i` stay, and the three entries of each triangle it visits hold the normal computed
from the triangle. -/
theorem normalLoop_spec (A : FloatArith) :
    ∀ (k i : Nat) (m m1 : Mesh), normalLoop A k i m = some m1 →
      i + 3 * k ≤ m.m_normals.length →
      (∃ ns, m1 = { m with m_normals := ns } ∧ ns.length = m.m_normals.length)
        ∧ (∀ p, p < i → m1.m_normals[p]? = m.m_normals[p]?)
        ∧ ∀ j, j < k → ∃ n, normalAt A m (i + 3 * j) = some n
            ∧ m1.m_normals[i + 3 * j]? = some n.1
            ∧ m1.m_normals[i + 3 * j + 1]? = some n.2.1
            ∧ m1.m_normals[i + 3 * j + 2]? = some n.2.2 := by
  intro k
  induction k with
  | zero =>
    intro i m m1 h _
    simp only [normalLoop, Option.some.injEq] at h
    subst h
    exact ⟨⟨m.m_normals, rfl, rfl⟩, fun _ _ => rfl, fun j hj => absurd hj (Nat.not_lt_zero _)⟩
  | succ k ih =>
    intro i m m1 h hlen
    rw [normalLoop, normalStep_eq] at h
    cases hn : normalAt A m i with
    | none => rw [hn] at h; simp at h
    | some n =>
      rw [hn] at h
      simp only [Option.map_some'] at h
      obtain ⟨⟨ns, e1, hl1⟩, hlow, hvis⟩ := ih (i + 3) _ m1 h (by simp; omega)
      simp only [List.length_set] at hl1
      refine ⟨⟨ns, by rw [e1], hl1⟩, ?_, ?_⟩
      · intro p hp
        rw [hlow p (by omega)]
        exact (set3_get m.m_normals i n.1 n.2.1 n.2.2 (by omega)).2.2.2 p hp
      · intro j hj
        cases j with
        | zero =>
          have hs := set3_get m.m_normals i n.1 n.2.1 n.2.2 (by omega)
          refine ⟨n, by simpa using hn, ?_, ?_, ?_⟩
          · rw [Nat.mul_zero, Nat.add_zero, hlow i (by omega)]; exact hs.1
          · rw [Nat.mul_zero, Nat.add_zero, hlow (i + 1) (by omega)]; exact hs.2.1
          · rw [Nat.mul_zero, Nat.add_zero, hlow (i + 2) (by omega)]; exact hs.2.2.1
        | succ j =>
          obtain ⟨n2, hn2, a, b, c⟩ := hvis j (by omega)
          have hidx : i + 3 * (j + 1) = i + 3 + 3 * j := by omega
          rw [hidx]
          rw [normalAt_set_normals] at hn2
          exact ⟨n2, hn2, a, b, c⟩

/-- What the normal pass leaves when it returns. -/
theorem calcNormals_spec (A : FloatArith) (m m1 : Mesh) (h : calcNormals A m = some m1) :
    0 ≤ m.m_triCount
      ∧ (∃ ns, m1 = { m with m_normals := ns } ∧ (ns.length : Int) = 3 * m.m_triCount)
      ∧ ∀ j : Nat, (j : Int) < m.m_triCount → ∃ n, normalAt A m (3 * j) = some n
            ∧ m1.m_normals[3 * j]? = some n.1
            ∧ m1.m_normals[3 * j + 1]? = some n.2.1
            ∧ m1.m_normals[3 * j + 2]? = some n.2.2 := by
  unfold calcNormals at h
  by_cases hT : m.m_triCount < 0
  · rw [if_pos hT] at h; cases h
  · rw [if_neg hT] at h
    have hlen : 0 + 3 * m.m_triCount.toNat
        ≤ ({ m with m_normals := resize m.m_normals (m.m_triCount * 3).toNat } : Mesh).m_normals.length := by
      simp only [resize_length]; omega
    obtain ⟨⟨ns, e1, hl1⟩, _, hvis⟩ := normalLoop_spec A _ 0 _ m1 h hlen
    simp only [resize_length] at hl1
    refine ⟨by omega, ⟨ns, by rw [e1], by omega⟩, ?_⟩
    intro j hj
    obtain ⟨n, hn, a, b, c⟩ := hvis j (by omega)
    simp only [Nat.zero_add] at hn a b c
    rw [normalAt_set_normals] at hn
    exact ⟨n, hn, a, b, c⟩

theorem head_not_lead (l : List Char) (q : Char → Bool) (n : Nat) (c : Char)
    (h : (((l.dropWhile isLead).takeWhile q).take n).head? = some c) : isLead c = false := by
  induction l with
  | nil => simp at h
  | cons a l ih =>
    by_cases ha : isLead a = true
    · rw [List.dropWhile_cons_of_pos ha] at h; exact ih h
    · rw [List.dropWhile_cons_of_neg ha] at h
      by_cases hq : q a = true
      · rw [List.takeWhile_cons_of_pos hq] at h
        cases n with
        | zero => simp at h
        | succ n =>
          simp only [List.take_succ_cons, List.head?_cons, Option.some.injEq] at h
          rw [← h]; simpa using ha
      · rw [List.takeWhile_cons_of_neg hq] at h
        simp at h

theorem parseRowLoop_row_mem (len : Int) :
    ∀ (buf : List Char) (start : Bool) (row : List Char),
      ∀ x ∈ (parseRowLoop len buf start row).1, x ∈ row ∨ x ∈ buf := by
  intro buf
  induction buf with
  | nil => intro start row x hx; left; simpa [parseRowLoop] using hx
  | cons c buf ih =>
    intro start row x hx
    have lift : (x ∈ row ∨ x ∈ buf) → (x ∈ row ∨ x ∈ c :: buf) :=
      fun h => h.imp id (List.mem_cons_of_mem _)
    rcases char_cases c with hd | rfl | ⟨hd, hn⟩
    · rw [parseRowLoop_dropped len c buf start row hd] at hx; exact lift (ih start row x hx)
    · cases start
      · rw [parseRowLoop_lf] at hx; exact Or.inl hx
      · rw [parseRowLoop_lf_start] at hx; exact lift (ih true row x hx)
    · by_cases hl : start = true ∧ isLead c = true
      · obtain ⟨rfl, hl⟩ := hl
        rw [parseRowLoop_lead_start len c buf row hl] at hx
        exact lift (ih true row x hx)
      · have hs2 : start = false ∨ isLead c = false := by
          cases start <;> simp at hl ⊢
          exact hl
        rw [parseRowLoop_store len c buf start row hd hn hs2] at hx
        have app : x ∈ row ++ [c] → (x ∈ row ∨ x ∈ c :: buf) := by
          intro h
          rcases List.mem_append.1 h with h | h
          · exact Or.inl h
          · right; rw [List.mem_singleton.1 h]; exact List.mem_cons_self _ _
        split at hx
        · exact app hx
        · rcases ih false _ x hx with h | h
          · exact app h
          · exact Or.inr (List.mem_cons_of_mem _ h)

/-- C12. For every buffer and every capacity `len >= 2`, `parseRow` stores at most `len - 1`
characters, so that the terminator it writes at `row[n]` stays inside `row[0..len-1]`; and
when `len - 1` characters have been stored the row ends right there: the call returns these
characters and leaves whatever follows (apart from dropped characters) in the buffer. -/
theorem parseRow_stays_in_row (buf : List Char) (len : Int) (hlen : 2 ≤ len) (c : Char)
    (b rest : List Char) (hd : isDropped c = false) (hl : isLead c = false) (hn : '\n' ∉ b)
    (hfull : 1 + ((b.filter (fun e => !isDropped e)).length : Int) = len - 1) :
    ((parseRow buf len).1.length : Int) ≤ len - 1
      ∧ ∃ tail, (∀ e ∈ tail, isDropped e = true)
          ∧ parseRow (c :: b ++ rest) len
            = (c :: b.filter (fun e => !isDropped e), tail ++ rest) := by
  constructor
  · unfold parseRow
    rw [parseRowLoop_row_true len hlen buf]
    unfold parseRowRef
    have := List.length_take_le (len - 1).toNat
      (((buf.filter (fun c => !isDropped c)).dropWhile isLead).takeWhile (fun c => c != '\n'))
    omega
  · have hc : c ≠ '\n' := by rintro rfl; simp [isLead] at hl
    unfold parseRow
    rw [List.cons_append, parseRowLoop_store len c _ true [] hd hc (Or.inr hl)]
    by_cases hb : b.filter (fun e => !isDropped e) = []
    · rw [hb] at hfull ⊢
      simp only [List.length_nil] at hfull
      rw [if_pos (by simp only [List.length_nil]; push_cast at hfull ⊢; omega)]
      refine ⟨b, ?_, rfl⟩
      intro e he
      by_contra hne2
      have : e ∈ b.filter (fun c => !isDropped c) :=
        List.mem_filter.2 ⟨he, by simpa using hne2⟩
      rw [hb] at this
      simp at this
    · have hpos : 0 < (b.filter (fun c => !isDropped c)).length := List.length_pos.2 hb
      rw [if_neg (by simp only [List.length_nil]; push_cast; omega)]
      obtain ⟨tail, ht, he⟩ := parseRowLoop_fill len rest b ([] ++ [c]) hn (by
        simp only [List.nil_append, List.length_singleton]; push_cast; omega) hb
      exact ⟨tail, ht, by rw [he]; simp⟩

/-- Witness for C12: capacity 4 on `abcdef`. -/
theorem parseRow_stays_in_row_witness :
    ((parseRow ['x', '\n'] 4).1.length : Int) ≤ 4 - 1
      ∧ ∃ tail, (∀ e ∈ tail, isDropped e = true)
          ∧ parseRow ('a' :: ['b', 'c'] ++ ['d', 'e', 'f']) 4
            = ('a' :: ['b', 'c'].filter (fun e => !isDropped e), tail ++ ['d', 'e', 'f']) :=
  parseRow_stays_in_row ['x', '\n'] 4 (by decide) 'a' ['b', 'c'] ['d', 'e', 'f'] (by decide)
    (by decide) (by decide) (by decide)

/-- C13 (as stated, refuted).  In the buffer made of two line feeds, `ab`, a line feed and
`c`, the second line feed is not the first character the call consumes, yet it does not end
the row: the row is `ab` and the cursor is at `c`. -/
theorem second_linefeed_is_skipped :
    parseRow ['\n', '\n', 'a', 'b', '\n', 'c'] 512 = (['a', 'b'], ['c'])
      ∧ parseRow ['\n', '\n', 'a', 'b', '\n', 'c'] 512 ≠ ([], ['a', 'b', '\n', 'c']) := by
  decide

/-- C13 (amended).  A line feed read by `parseRow` ends the row unless no character has been
copied yet in that call: after a copied character the row holds the copied characters that
precede the line feed and the cursor is just past it; every line feed read before the first
copied character is skipped, whatever was skipped before it. -/
theorem linefeed_ends_row_once_copied (len : Int) (lead b post : List Char) (c : Char)
    (hlead : ∀ e ∈ lead, isDropped e = true ∨ isLead e = true)
    (hd : isDropped c = false) (hl : isLead c = false) (hn : '\n' ∉ b)
    (hroom : 1 + ((b.filter (fun e => !isDropped e)).length : Int) < len - 1) :
    parseRow (lead ++ c :: b ++ '\n' :: post) len = (c :: b.filter (fun e => !isDropped e), post)
      ∧ parseRow (lead ++ '\n' :: post) len = parseRow post len := by
  have hc : c ≠ '\n' := by rintro rfl; simp [isLead] at hl
  constructor
  · unfold parseRow
    rw [List.append_assoc, parseRowLoop_skip len _ [] lead hlead, List.cons_append,
      parseRowLoop_store len c _ true [] hd hc (Or.inr hl),
      if_neg (by simp only [List.length_nil]; push_cast; omega)]
    rw [parseRowLoop_until_lf len post b ([] ++ [c]) hn (by
      simp only [List.nil_append, List.length_singleton]; push_cast; omega)]
    simp
  · unfold parseRow
    rw [parseRowLoop_skip len _ [] lead hlead, parseRowLoop_lf_start]

/-- Witness for C13 (amended): blanks and a line feed, then `ab`, a line feed and `c`. -/
theorem linefeed_ends_row_once_copied_witness :
    parseRow ([' ', '\n'] ++ 'a' :: ['b'] ++ '\n' :: ['c']) 512
        = ('a' :: ['b'].filter (fun e => !isDropped e), ['c'])
      ∧ parseRow ([' ', '\n'] ++ '\n' :: ['c']) 512 = parseRow ['c'] 512 :=
  linefeed_ends_row_once_copied 512 [' ', '\n'] ['b'] ['c'] 'a' (by decide) (by decide)
    (by decide) (by decide) (by decide)

/-- C18. For every buffer and every `len >= 2` the row `parseRow` produces is the
reference: the characters from the cursor on, without backslashes and carriage returns,
without the leading run of spaces, tabs and line feeds, up to the first remaining line
feed, cut to `len - 1` characters.  Hence the row never starts with a space or a tab; a
backslash before a line feed does not continue the line; blanks after the first copied
character are kept as they are. -/
theorem parseRow_is_reference (buf : List Char) (len : Int) (hlen : 2 ≤ len) :
    (parseRow buf len).1 = parseRowRef buf len
      ∧ (parseRow buf len).1.head? ≠ some ' ' ∧ (parseRow buf len).1.head? ≠ some '\t'
      ∧ parseRow ['a', 'b', '\\', '\n', 'c', 'd'] 512 = (['a', 'b'], ['c', 'd'])
      ∧ parseRow [' ', 'a', ' ', ' ', 'b', '\t', ' ', 'c', '\n'] 512
        = (['a', ' ', ' ', 'b', '\t', ' ', 'c'], []) := by
  have href : (parseRow buf len).1 = parseRowRef buf len := parseRowLoop_row_true len hlen buf
  refine ⟨href, ?_, ?_, by decide, by decide⟩
  · intro h
    rw [href] at h
    have := head_not_lead _ _ _ _ h
    simp [isLead] at this
  · intro h
    rw [href] at h
    have := head_not_lead _ _ _ _ h
    simp [isLead] at this

/-- Witness for C18: a row with leading blanks, a backslash and a carriage return. -/
theorem parseRow_is_reference_witness :
    (parseRow [' ', '\t', 'v', '\\', ' ', '1', '\r', '\n', 'f'] 512).1
        = parseRowRef [' ', '\t', 'v', '\\', ' ', '1', '\r', '\n', 'f'] 512
      ∧ (parseRow [' ', '\t', 'v', '\\', ' ', '1', '\r', '\n', 'f'] 512).1.head? ≠ some ' '
      ∧ (parseRow [' ', '\t', 'v', '\\', ' ', '1', '\r', '\n', 'f'] 512).1.head? ≠ some '\t'
      ∧ parseRow ['a', 'b', '\\', '\n', 'c', 'd'] 512 = (['a', 'b'], ['c', 'd'])
      ∧ parseRow [' ', 'a', ' ', ' ', 'b', '\t', ' ', 'c', '\n'] 512
        = (['a', ' ', ' ', 'b', '\t', ' ', 'c'], []) :=
  parseRow_is_reference [' ', '\t', 'v', '\\', ' ', '1', '\r', '\n', 'f'] 512 (by decide)

/-- C14 (as stated, refuted).  The buffer `longComment` is one line whose first character
is `#`; its row is cut after 511 characters and the `v` left on the line is parsed as a
vertex row.  With the line deleted the buffer is empty and no vertex is added. -/
theorem long_comment_adds_vertex :
    longComment.head? = some '#' ∧ longComment.getLast? = some '\n'
      ∧ (longComment.filter (fun c => c == '\n')).length = 1
      ∧ (loadParse binary32 longComment freshState).map (fun s => s.mesh.m_vertCount) = some 1
      ∧ (loadParse binary32 [] freshState).map (fun s => s.mesh.m_vertCount) = some 0 := by
  decide

/-- C14 (amended).  A line whose first character is `#` and which holds at most 510 further
characters besides backslashes and carriage returns is ignored: with the line and its line
feed deleted, the parse pass ends in the same state and `load` leaves the same mesh. -/
theorem comment_line_ignored (A : FloatArith) (pre comment post : List Char) (st : LoadState)
    (name : String) (hpre : pre = [] ∨ ∃ p, pre = p ++ ['\n']) (hn : '\n' ∉ comment)
    (hlen : (comment.filter (fun c => !isDropped c)).length ≤ 510) :
    loadParse A (pre ++ ('#' :: comment ++ '\n' :: post)) st = loadParse A (pre ++ post) st
      ∧ loadBuffer A name (pre ++ ('#' :: comment ++ '\n' :: post)) st
        = loadBuffer A name (pre ++ post) st := by
  have h : loadParse A (pre ++ ('#' :: comment ++ '\n' :: post)) st
      = loadParse A (pre ++ post) st := by
    rw [loadParse_append A _ pre.length pre st (Nat.le_refl _) hpre,
      loadParse_append A _ pre.length pre st (Nat.le_refl _) hpre]
    congr 1
    funext st1
    exact loadParse_comment_line A comment post st1 hn hlen
  exact ⟨h, by simp only [loadBuffer, h]⟩

/-- Witness for C14 (amended): a comment between a vertex row and a face row. -/
theorem comment_line_ignored_witness :
    loadParse binary32 (['v', '\n'] ++ ('#' :: ['v', ' ', '\\', '1'] ++ '\n' :: ['f', ' ', '1']))
        freshState
        = loadParse binary32 (['v', '\n'] ++ ['f', ' ', '1']) freshState
      ∧ loadBuffer binary32 "a.obj"
          (['v', '\n'] ++ ('#' :: ['v', ' ', '\\', '1'] ++ '\n' :: ['f', ' ', '1'])) freshState
        = loadBuffer binary32 "a.obj" (['v', '\n'] ++ ['f', ' ', '1']) freshState :=
  comment_line_ignored binary32 ['v', '\n'] ['v', ' ', '\\', '1'] ['f', ' ', '1'] freshState
    "a.obj" (Or.inr ⟨['v'], rfl⟩) (by decide) (by decide)

theorem fanLoop_vertCount (face : List Int) (k i : Nat) (m : Mesh) :
    (fanLoop face k i m).m_vertCount = m.m_vertCount
      ∧ (fanLoop face k i m).m_verts = m.m_verts := by
  rw [fanLoop_eq]
  exact ⟨rfl, rfl⟩

/-- The body of the parse loop adds one vertex for a vertex row and none otherwise. -/
theorem loadRow_vertCount (A : FloatArith) (row : List Char) (st : LoadState) :
    ∃ st1, loadRow A row st = some st1
      ∧ st1.mesh.m_vertCount = st.mesh.m_vertCount + (if isVertexRow row = true then 1 else 0)
      ∧ st1.mesh.m_verts.length
        = st.mesh.m_verts.length + (if isVertexRow row = true then 3 else 0) := by
  have hv : (loadVertex A row st).mesh.m_vertCount
        = st.mesh.m_vertCount + (if isVertexRow row = true then 1 else 0)
      ∧ (loadVertex A row st).mesh.m_verts.length
        = st.mesh.m_verts.length + (if isVertexRow row = true then 3 else 0) := by
    unfold loadVertex
    by_cases h : rowAt row 0 = 'v' ∧ rowAt row 1 ≠ 'n' ∧ rowAt row 1 ≠ 't'
    · have hi : isVertexRow row = true := by
        simp [isVertexRow, h.1, h.2.1, h.2.2]
      rw [if_pos h, if_pos hi, if_pos hi]
      simp [addVertex]
    · have hi : ¬ isVertexRow row = true := by
        intro hi
        apply h
        simpa [isVertexRow, and_assoc] using hi
      rw [if_neg h, if_neg hi, if_neg hi]
      simp
  unfold loadRow
  by_cases h0 : rowAt row 0 = '#'
  · have hi : ¬ isVertexRow row = true := by
      simp [isVertexRow, h0]
    rw [if_pos h0, if_neg hi, if_neg hi]
    exact ⟨st, rfl, by simp, by simp⟩
  · rw [if_neg h0]
    simp only []
    by_cases hf : rowAt row 0 = 'f'
    · rw [if_pos hf]
      obtain ⟨face, hface⟩ :=
        parseFace_isSome (row.drop 1) 32 (loadVertex A row st).mesh.m_vertCount
      simp only [loadFace, hface]
      refine ⟨_, rfl, ?_, ?_⟩
      · rw [(fanLoop_vertCount _ _ _ _).1]; exact hv.1
      · rw [(fanLoop_vertCount _ _ _ _).2]; exact hv.2
    · rw [if_neg hf]
      exact ⟨_, rfl, hv.1, hv.2⟩

/-- The parse loop adds one vertex per vertex row of the buffer. -/
theorem loadLoop_vertCount (A : FloatArith) (fuel : Nat) :
    ∀ (buf : List Char) (st : LoadState), buf.length ≤ fuel →
      ∃ st1, loadLoop A fuel buf st = some st1
        ∧ st1.mesh.m_vertCount
          = st.mesh.m_vertCount + (((rowsLoop fuel buf).filter isVertexRow).length : Nat)
        ∧ st1.mesh.m_verts.length
          = st.mesh.m_verts.length + 3 * ((rowsLoop fuel buf).filter isVertexRow).length := by
  induction fuel with
  | zero =>
    intro buf st hl
    cases buf with
    | nil => exact ⟨st, by simp [loadLoop], by simp [rowsLoop], by simp [rowsLoop]⟩
    | cons c cs => simp at hl
  | succ fuel ih =>
    intro buf st hl
    cases buf with
    | nil => exact ⟨st, by simp [loadLoop], by simp [rowsLoop], by simp [rowsLoop]⟩
    | cons c cs =>
      obtain ⟨st1, h1, hc1, hv1⟩ := loadRow_vertCount A (parseRow (c :: cs) 512).1 st
      have hlen := parseRow_length_lt c cs 512
      obtain ⟨st2, h2, hc2, hv2⟩ := ih (parseRow (c :: cs) 512).2 st1 (by
        simp only [List.length_cons] at hl; omega)
      refine ⟨st2, by rw [loadLoop_cons, h1]; exact h2, ?_, ?_⟩
      · rw [hc2, hc1, rowsLoop, List.filter_cons]
        split <;> first | (simp; omega) | simp
      · rw [hv2, hv1, rowsLoop, List.filter_cons]
        split <;> first | (simp; omega) | simp

/-- The mesh `load` leaves has matching counts when it started from matching counts. -/
theorem loadBuffer_counts (A : FloatArith) (name : String) (buf : List Char) (st : LoadState)
    (m : Mesh) (hc : CountsMatch st.mesh) (h : loadBuffer A name buf st = some m) :
    Consistent m := by
  obtain ⟨st1, h1, hc1⟩ := loadParse_inv A CountsMatch CountsMatch_addVertex
    CountsMatch_fanStep buf st hc
  simp only [loadBuffer, h1] at h
  cases h2 : calcNormals A st1.mesh with
  | none => rw [h2] at h; simp at h
  | some m1 =>
    rw [h2] at h
    simp only [Option.some.injEq] at h
    obtain ⟨_, ⟨ns, e, hl⟩, _⟩ := calcNormals_spec A st1.mesh m1 h2
    subst h
    subst e
    exact ⟨hc1, hl⟩

/-- C15. After a successful `load` (the call returns `true`) on a mesh whose vertex and
triangle arrays match its counts, the lengths of the vertex, triangle and normal arrays are
`3 * m_vertCount`, `3 * m_triCount` and `3 * m_triCount`; on a fresh mesh `load` without
the cache succeeds with such a mesh for every file that is not empty, and returns `false`
with the mesh as it was for the empty file. -/
theorem load_lengths_match_counts (A : FloatArith) (canWrite : String → Bool)
    (file : Option (List Char)) (name : String) (save : Bool) (st : LoadState)
    (fs fs1 : FileSys) (M : Mesh) (buf : List Char) (x y z : F32)
    (hc : CountsMatch st.mesh)
    (h : load A canWrite file name save st fs = some (true, M, fs1)) (hbuf : buf ≠ []) :
    ((M.m_verts.length : Int) = 3 * M.m_vertCount
        ∧ (M.m_tris.length : Int) = 3 * M.m_triCount
        ∧ (M.m_normals.length : Int) = 3 * M.m_triCount)
      ∧ (∃ M1, load A canWrite (some buf) name false { mesh := Mesh.new, x := x, y := y, z := z } fs
            = some (true, M1, fs)
          ∧ (M1.m_verts.length : Int) = 3 * M1.m_vertCount
          ∧ (M1.m_tris.length : Int) = 3 * M1.m_triCount
          ∧ (M1.m_normals.length : Int) = 3 * M1.m_triCount)
      ∧ load A canWrite (some []) name save st fs = some (false, st.mesh, fs) := by
  refine ⟨?_, ?_, ?_⟩
  · unfold load at h
    cases file with
    | none => simp at h
    | some b =>
      simp only [] at h
      by_cases hb0 : b = []
      · rw [if_pos hb0] at h
        simp at h
      rw [if_neg hb0] at h
      cases hb : loadBuffer A name b st with
      | none => rw [hb] at h; simp at h
      | some m =>
        have hm := loadBuffer_counts A name b st m hc hb
        rw [hb] at h
        simp only [] at h
        have hM : M = m := by
          cases save with
          | false =>
            simp only [Bool.false_eq_true, if_false, Option.some.injEq, Prod.mk.injEq,
              true_and] at h
            exact h.1.symm
          | true =>
            simp only [if_true] at h
            cases hs : savePath canWrite name m fs with
            | none => rw [hs] at h; simp at h
            | some r =>
              obtain ⟨ok, fs2⟩ := r
              rw [hs] at h
              cases ok with
              | false => simp at h
              | true =>
                simp only [] at h
                cases hv : verifyPath fs2 name m with
                | none => rw [hv] at h; simp at h
                | some ok2 =>
                  rw [hv] at h
                  simp only [Option.some.injEq, Prod.mk.injEq] at h
                  exact h.2.1.symm
        rw [hM]
        exact ⟨hm.1.1, hm.1.2, hm.2⟩
  · have hfresh : CountsMatch (Mesh.new) := by simp [CountsMatch, Mesh.new]
    obtain ⟨st1, h1, hr, hc1⟩ := loadParse_inv A (fun m => TrisInRange m ∧ CountsMatch m)
      (fun m x y z h => ⟨TrisInRange_addVertex m x y z h.1, CountsMatch_addVertex m x y z h.2⟩)
      (fun face i m h => ⟨TrisInRange_fanStep face i m h.1, CountsMatch_fanStep face i m h.2⟩)
      buf { mesh := Mesh.new, x := x, y := y, z := z }
      ⟨fun t ht => by simp [Mesh.new] at ht, hfresh⟩
    obtain ⟨ns, h2, h3⟩ := calcNormals_ok A st1.mesh hc1 hr
    refine ⟨{ st1.mesh with m_normals := ns, m_filename := name }, ?_, hc1.1, hc1.2, h3⟩
    simp [load, loadBuffer, h1, h2, hbuf]
  · simp [load]

/-- Witness for C15: the quad example, loaded without the cache. -/
theorem load_lengths_match_counts_witness :
    ((quadMesh.m_verts.length : Int) = 3 * quadMesh.m_vertCount
        ∧ (quadMesh.m_tris.length : Int) = 3 * quadMesh.m_triCount
        ∧ (quadMesh.m_normals.length : Int) = 3 * quadMesh.m_triCount)
      ∧ (∃ M1, load binary32 (fun _ => true) (some ['v', '\n']) "quad.obj" false
              { mesh := Mesh.new, x := F32.zero, y := F32.zero, z := F32.zero } emptyFileSys
            = some (true, M1, emptyFileSys)
          ∧ (M1.m_verts.length : Int) = 3 * M1.m_vertCount
          ∧ (M1.m_tris.length : Int) = 3 * M1.m_triCount
          ∧ (M1.m_normals.length : Int) = 3 * M1.m_triCount)
      ∧ load binary32 (fun _ => true) (some []) "quad.obj" false freshState emptyFileSys
          = some (false, freshState.mesh, emptyFileSys) :=
  load_lengths_match_counts binary32 (fun _ => true) (some quadText) "quad.obj" false freshState
    emptyFileSys emptyFileSys quadMesh ['v', '\n'] F32.zero F32.zero F32.zero
    (by simp [CountsMatch, freshState, Mesh.new])
    (by have hq : quadText ≠ [] := by decide
        simp [load, quad_load.1, hq]) (by decide)

/-- C16. There are three cache files that can be opened, each as long as its count
announces, on which `loadBinary` returns `true` and leaves a mesh whose normal array is not
`3 * m_triCount` long and whose triangle indices are not all in `[0, m_vertCount)`. -/
theorem loadBinary_no_cross_validation :
    (∃ bv bi bn, mismatchedCache ("m" ++ ".vertices") = some bv
        ∧ mismatchedCache ("m" ++ ".indices") = some bi
        ∧ mismatchedCache ("m" ++ ".normals") = some bn
        ∧ (bv.length : Int) = 4 + 12 * freadCount bv
        ∧ (bi.length : Int) = 4 + 12 * freadCount bi
        ∧ (bn.length : Int) = 4 + 4 * freadCount bn)
      ∧ ∃ m, loadBinary mismatchedCache "m" Mesh.new = some (true, m)
        ∧ (m.m_normals.length : Int) ≠ 3 * m.m_triCount
        ∧ ∃ t ∈ m.m_tris, ¬ (0 ≤ t ∧ t < m.m_vertCount) := by
  refine ⟨⟨_, _, _, rfl, rfl, rfl, by decide, by decide, by decide⟩, ?_⟩
  refine ⟨{ Mesh.new with m_vertCount := 1, m_verts := [F32.zero, F32.zero, F32.zero],
                          m_triCount := 1, m_tris := [0, 1, 5] }, by decide, by decide, ?_⟩
  exact ⟨5, by decide, by decide⟩

/-- C19. The parse loop of `load` terminates on every buffer: on a non-empty buffer
`parseRow` returns a cursor strictly after the one it was given and not past the end (the
buffer is a non-empty run of consumed characters followed by the returned cursor); every
iteration of the outer loop of `parseFace` moves its cursor forward until the terminator,
and `parseFace` returns; the parse pass returns from every state; and `parseRow` stores no
character only when the cursor it returns is the end of the buffer (for a buffer without
`'\0'` the row then reads as the empty string only in that case). -/
theorem parse_loop_terminates (A : FloatArith) (buf row : List Char) (c : Char) (cs : List Char)
    (len n vc : Int) (st : LoadState) :
    (∃ consumed, consumed ≠ [] ∧ c :: cs = consumed ++ (parseRow (c :: cs) len).2)
      ∧ (atEnd row = true ∨ (scanToken (skipBlank row)).2.length < row.length)
      ∧ (∃ face, parseFace row n vc = some face)
      ∧ (∃ st1, loadParse A buf st = some st1)
      ∧ ((parseRow buf len).1 ≠ [] ∨ (parseRow buf len).2 = [])
      ∧ (NUL ∈ buf ∨ rowAt (parseRow buf len).1 0 ≠ NUL ∨ (parseRow buf len).2 = []) := by
  refine ⟨?_, ?_, parseFace_isSome row n vc, ?_, ?_, ?_⟩
  · obtain ⟨t, ht⟩ := parseRowLoop_suffix len (c :: cs) true []
    refine ⟨t, ?_, ht.symm⟩
    rintro rfl
    have h1 := parseRow_length_lt c cs len
    have h2 := congrArg List.length ht
    unfold parseRow at h1
    simp only [List.nil_append, List.length_cons] at h2
    omega
  · cases h : atEnd row with
    | true => exact Or.inl rfl
    | false => exact Or.inr (parseFace_step_lt row h)
  · obtain ⟨st1, h1, _⟩ := loadParse_inv A (fun _ => True) (fun _ _ _ _ _ => trivial)
      (fun _ _ _ _ => trivial) buf st trivial
    exact ⟨st1, h1⟩
  · by_cases h : (parseRow buf len).1 = []
    · exact Or.inr (parseRowLoop_empty_row len buf h)
    · exact Or.inl h
  · by_cases hN : NUL ∈ buf
    · exact Or.inl hN
    · right
      by_cases h : (parseRow buf len).1 = []
      · exact Or.inr (parseRowLoop_empty_row len buf h)
      · left
        cases hr : (parseRow buf len).1 with
        | nil => exact absurd hr h
        | cons a l =>
          have hmem : a ∈ (parseRowLoop len buf true []).1 := by
            have : (parseRowLoop len buf true []).1 = a :: l := hr
            rw [this]; exact List.mem_cons_self _ _
          rcases parseRowLoop_row_mem len buf true [] a hmem with h1 | h1
          · simp at h1
          · intro ha
            apply hN
            have : a = NUL := by simpa [rowAt] using ha
            rw [← this]; exact h1

/-- C20. The vertex count after the parse pass, and after `load`, is the count before plus
the number of rows of the buffer whose first character is `v` and whose second character
is neither `n` nor `t`; three floats are appended for each such row.  The rows `v`, `v 1 2`
and `vp 1 2 3` each add one vertex, whatever could be scanned from them; the rows
`vn 1 2 3`, `vt 1 2`, `f 1 2 3` and `# v` add none. -/
theorem vertex_count_per_vertex_row (A : FloatArith) (buf : List Char) (st : LoadState)
    (name : String) (M : Mesh) (hM : loadBuffer A name buf st = some M) :
    (∃ st1, loadParse A buf st = some st1
        ∧ st1.mesh.m_vertCount
          = st.mesh.m_vertCount + (((rowsOf buf).filter isVertexRow).length : Nat)
        ∧ st1.mesh.m_verts.length
          = st.mesh.m_verts.length + 3 * ((rowsOf buf).filter isVertexRow).length)
      ∧ M.m_vertCount = st.mesh.m_vertCount + (((rowsOf buf).filter isVertexRow).length : Nat)
      ∧ (loadRow A ['v'] st).map (fun s => s.mesh.m_vertCount) = some (st.mesh.m_vertCount + 1)
      ∧ (loadRow A ['v', ' ', '1', ' ', '2'] st).map (fun s => s.mesh.m_vertCount)
        = some (st.mesh.m_vertCount + 1)
      ∧ (loadRow A ['v', 'p', ' ', '1', ' ', '2', ' ', '3'] st).map (fun s => s.mesh.m_vertCount)
        = some (st.mesh.m_vertCount + 1)
      ∧ (loadRow A ['v', 'n', ' ', '1', ' ', '2', ' ', '3'] st).map (fun s => s.mesh.m_vertCount)
        = some st.mesh.m_vertCount
      ∧ (loadRow A ['v', 't', ' ', '1', ' ', '2'] st).map (fun s => s.mesh.m_vertCount)
        = some st.mesh.m_vertCount
      ∧ (loadRow A ['f', ' ', '1', ' ', '2', ' ', '3'] st).map (fun s => s.mesh.m_vertCount)
        = some st.mesh.m_vertCount
      ∧ (loadRow A ['#', ' ', 'v'] st).map (fun s => s.mesh.m_vertCount)
        = some st.mesh.m_vertCount := by
  have hrow : ∀ (row : List Char) (k : Int),
      (if isVertexRow row = true then (1 : Int) else 0) = k →
      (loadRow A row st).map (fun s => s.mesh.m_vertCount) = some (st.mesh.m_vertCount + k) := by
    intro row k hk
    obtain ⟨st1, h1, h2, _⟩ := loadRow_vertCount A row st
    rw [h1, Option.map_some', h2, hk]
  obtain ⟨st1, h1, h2, h3⟩ := loadLoop_vertCount A buf.length buf st (Nat.le_refl _)
  refine ⟨⟨st1, h1, h2, h3⟩, ?_, hrow _ 1 (by decide), hrow _ 1 (by decide),
    hrow _ 1 (by decide), ?_, ?_, ?_, ?_⟩
  · have h1' : loadParse A buf st = some st1 := h1
    simp only [loadBuffer, h1'] at hM
    cases hn : calcNormals A st1.mesh with
    | none => rw [hn] at hM; simp at hM
    | some m1 =>
      rw [hn] at hM
      simp only [Option.some.injEq] at hM
      obtain ⟨_, ⟨ns, e, _⟩, _⟩ := calcNormals_spec A st1.mesh m1 hn
      subst hM
      subst e
      exact h2
  · simpa using hrow ['v', 'n', ' ', '1', ' ', '2', ' ', '3'] 0 (by decide)
  · simpa using hrow ['v', 't', ' ', '1', ' ', '2'] 0 (by decide)
  · simpa using hrow ['f', ' ', '1', ' ', '2', ' ', '3'] 0 (by decide)
  · simpa using hrow ['#', ' ', 'v'] 0 (by decide)

theorem cutSlash_nil : cutSlash [] = [] := rfl

theorem cutSlash_idem (t : List Char) : cutSlash (cutSlash t) = cutSlash t := by
  unfold cutSlash
  induction t with
  | nil => rfl
  | cons c t ih =>
    by_cases h : c = '/'
    · simp [List.takeWhile_cons, h]
    · simp only [List.takeWhile_cons, bne_iff_ne, ne_eq, h, not_false_eq_true, decide_True,
        if_true, ih]

theorem cutRowAux_mem (r : List Char) : ∀ (d : Bool) (c : Char), c ∈ cutRowAux d r → c ∈ r := by
  induction r with
  | nil => intro d c h; simp [cutRowAux] at h
  | cons a r ih =>
    intro d c h
    unfold cutRowAux at h
    split at h
    · rcases List.mem_cons.1 h with rfl | h
      · exact List.mem_cons_self _ _
      · exact List.mem_cons_of_mem _ (ih _ _ h)
    · split at h
      · exact List.mem_cons_of_mem _ (ih _ _ h)
      · split at h
        · exact List.mem_cons_of_mem _ (ih _ _ h)
        · rcases List.mem_cons.1 h with rfl | h
          · exact List.mem_cons_self _ _
          · exact List.mem_cons_of_mem _ (ih _ _ h)

/-- Cutting the row cuts each blank-separated piece at its first slash. -/
theorem splitOnP_cutRowAux (r : List Char) :
    ∀ (d : Bool), ∃ h t, r.splitOnP isBlank = h :: t
      ∧ (cutRowAux d r).splitOnP isBlank = (if d = true then [] else cutSlash h) :: t.map cutSlash := by
  induction r with
  | nil => intro d; exact ⟨[], [], rfl, by cases d <;> rfl⟩
  | cons c r ih =>
    intro d
    by_cases hb : isBlank c = true
    · obtain ⟨h, t, e1, e2⟩ := ih false
      refine ⟨[], h :: t, by rw [List.splitOnP_cons, if_pos hb, e1], ?_⟩
      rw [cutRowAux, if_pos hb, List.splitOnP_cons, if_pos hb, e2]
      cases d <;> simp [cutSlash_nil]
    · have hsplit : ∀ h t, r.splitOnP isBlank = h :: t →
          (c :: r).splitOnP isBlank = (c :: h) :: t := by
        intro h t e
        rw [List.splitOnP_cons, if_neg hb, e]
        rfl
      cases d with
      | true =>
        obtain ⟨h, t, e1, e2⟩ := ih true
        refine ⟨c :: h, t, hsplit h t e1, ?_⟩
        rw [cutRowAux, if_neg hb, if_pos rfl, e2]
        simp
      | false =>
        by_cases hs : c = '/'
        · obtain ⟨h, t, e1, e2⟩ := ih true
          refine ⟨c :: h, t, hsplit h t e1, ?_⟩
          rw [cutRowAux, if_neg hb, if_neg (by simp), if_pos hs, e2]
          subst hs
          simp [cutSlash]
        · obtain ⟨h, t, e1, e2⟩ := ih false
          refine ⟨c :: h, t, hsplit h t e1, ?_⟩
          rw [cutRowAux, if_neg hb, if_neg (by simp), if_neg hs, List.splitOnP_cons, if_neg hb,
            e2]
          simp [cutSlash, List.takeWhile_cons, hs]

theorem filter_map_cutSlash (L : List (List Char)) :
    ((L.filter (fun t => !t.isEmpty)).map cutSlash).filter (fun t => !t.isEmpty)
      = (L.map cutSlash).filter (fun t => !t.isEmpty) := by
  induction L with
  | nil => rfl
  | cons a L ih =>
    cases a with
    | nil => simpa [cutSlash_nil] using ih
    | cons c a => simp [List.filter_cons, ih]

theorem cstr_no_nul (row : List Char) : ∀ c ∈ cstr row, c ≠ NUL := by
  intro c hc
  have := List.mem_takeWhile_imp hc
  simpa using this

theorem cstr_of_no_nul (l : List Char) (h : ∀ c ∈ l, c ≠ NUL) : cstr l = l :=
  List.takeWhile_eq_self_iff.2 (fun c hc => by simpa using h c hc)

/-- The tokens of the cut row are the cut tokens of the row. -/
theorem rowTokens_cutRow (row : List Char) :
    rowTokens (cutRow row) = faceTokens row ∧ faceTokens (cutRow row) = faceTokens row := by
  have hc : cstr (cutRow row) = cutRow row :=
    cstr_of_no_nul _ (fun c hc => cstr_no_nul row c (cutRowAux_mem _ _ _ hc))
  obtain ⟨h, t, e1, e2⟩ := splitOnP_cutRowAux (cstr row) false
  have h1 : rowTokens (cutRow row) = faceTokens row := by
    unfold rowTokens faceTokens rowTokens
    rw [hc, filter_map_cutSlash, e1]
    unfold cutRow
    rw [e2]
    simp
  refine ⟨h1, ?_⟩
  unfold faceTokens
  rw [h1]
  unfold faceTokens
  rw [filter_map_cutSlash, List.map_map]
  have : cutSlash ∘ cutSlash = cutSlash := funext cutSlash_idem
  rw [this]

/-- C11 (as stated, refuted).  The row made of a blank, a vertical tab, `/3`, a blank and
`5` parses to `(-1, 4)` with `vcnt = 0`; with its tokens cut at the first slash the row is a
blank, a vertical tab, a blank and `5`, and parses to `(4, 4)`. -/
theorem cut_row_parses_differently :
    cutRow rowVtabSlash = [' ', Char.ofNat 11, ' ', '5']
      ∧ parseFace rowVtabSlash 32 0 = some [-1, 4]
      ∧ parseFace (cutRow rowVtabSlash) 32 0 = some [4, 4] := by
  decide

/-- C11 (amended).  For every face row in which each token that is non-empty after the cut
at its first slash holds, before the slash, a character that is not C white space, every
vertex count and every cap `n >= 1`, `parseFace` returns the same indices (and so the same
count) as on the row with every token cut at its first slash; a token that is empty after
the cut is not counted.  The row ` 1/7/9 2/8 3//4` parses like ` 1 2 3`. -/
theorem sub_indices_ignored (row : List Char) (n vc : Int) (hn : 1 ≤ n)
    (h : ∀ t ∈ faceTokens row, ∃ c ∈ t, isspace c = false) :
    parseFace row n vc = parseFace (cutRow row) n vc
      ∧ (∃ data, parseFace row n vc = some data
          ∧ data.length = min n.toNat
              (((rowTokens row).map cutSlash).filter (fun t => !t.isEmpty)).length)
      ∧ parseFace [' ', '1', '/', '7', '/', '9', ' ', '2', '/', '8', ' ', '3', '/', '/', '4'] n vc
        = parseFace [' ', '1', ' ', '2', ' ', '3'] n vc := by
  have hT1 : TokensConvertible row := by
    intro t ht hcut
    have hne : t.isEmpty = false := by
      have := (List.mem_filter.1 ht).2
      simpa using this
    exact h t (List.mem_filter.2 ⟨List.mem_map.2 ⟨t, ht, hcut⟩, by simp [hne]⟩)
  have hT2 : TokensConvertible (cutRow row) := by
    intro t ht _
    rw [(rowTokens_cutRow row).1] at ht
    exact h t ht
  have e1 := parseFace_eq_ref row n vc hn hT1
  have e2 := parseFace_eq_ref (cutRow row) n vc hn hT2
  refine ⟨?_, ⟨_, e1, ?_⟩, ?_⟩
  · rw [e1, e2]
    unfold parseFaceRef
    rw [(rowTokens_cutRow row).2]
  · simp [parseFaceRef, faceTokens]
  · have hA : TokensConvertible
        [' ', '1', '/', '7', '/', '9', ' ', '2', '/', '8', ' ', '3', '/', '/', '4'] := by
      unfold TokensConvertible; decide
    have hB : TokensConvertible [' ', '1', ' ', '2', ' ', '3'] := by
      unfold TokensConvertible; decide
    rw [parseFace_eq_ref _ n vc hn hA, parseFace_eq_ref _ n vc hn hB]
    have hf : faceTokens
          [' ', '1', '/', '7', '/', '9', ' ', '2', '/', '8', ' ', '3', '/', '/', '4']
        = faceTokens [' ', '1', ' ', '2', ' ', '3'] := by decide
    unfold parseFaceRef
    rw [hf]

/-- Witness for C11 (amended): the row ` 1/7/9 2/8 3//4 -1 /5` with the cap 32. -/
theorem sub_indices_ignored_witness :
    parseFace rowSlashes 32 4 = parseFace (cutRow rowSlashes) 32 4
      ∧ (∃ data, parseFace rowSlashes 32 4 = some data
          ∧ data.length = min (32 : Int).toNat
              (((rowTokens rowSlashes).map cutSlash).filter (fun t => !t.isEmpty)).length)
      ∧ parseFace [' ', '1', '/', '7', '/', '9', ' ', '2', '/', '8', ' ', '3', '/', '/', '4'] 32 4
        = parseFace [' ', '1', ' ', '2', ' ', '3'] 32 4 :=
  sub_indices_ignored rowSlashes 32 4 (by decide) (by decide)

/-- Witness for C20: the quad example. -/
theorem vertex_count_per_vertex_row_witness :
    (∃ st1, loadParse binary32 quadText freshState = some st1
        ∧ st1.mesh.m_vertCount
          = freshState.mesh.m_vertCount + (((rowsOf quadText).filter isVertexRow).length : Nat)
        ∧ st1.mesh.m_verts.length
          = freshState.mesh.m_verts.length + 3 * ((rowsOf quadText).filter isVertexRow).length)
      ∧ quadMesh.m_vertCount
        = freshState.mesh.m_vertCount + (((rowsOf quadText).filter isVertexRow).length : Nat)
      ∧ (loadRow binary32 ['v'] freshState).map (fun s => s.mesh.m_vertCount)
        = some (freshState.mesh.m_vertCount + 1)
      ∧ (loadRow binary32 ['v', ' ', '1', ' ', '2'] freshState).map (fun s => s.mesh.m_vertCount)
        = some (freshState.mesh.m_vertCount + 1)
      ∧ (loadRow binary32 ['v', 'p', ' ', '1', ' ', '2', ' ', '3'] freshState).map
          (fun s => s.mesh.m_vertCount)
        = some (freshState.mesh.m_vertCount + 1)
      ∧ (loadRow binary32 ['v', 'n', ' ', '1', ' ', '2', ' ', '3'] freshState).map
          (fun s => s.mesh.m_vertCount)
        = some freshState.mesh.m_vertCount
      ∧ (loadRow binary32 ['v', 't', ' ', '1', ' ', '2'] freshState).map
          (fun s => s.mesh.m_vertCount)
        = some freshState.mesh.m_vertCount
      ∧ (loadRow binary32 ['f', ' ', '1', ' ', '2', ' ', '3'] freshState).map
          (fun s => s.mesh.m_vertCount)
        = some freshState.mesh.m_vertCount
      ∧ (loadRow binary32 ['#', ' ', 'v'] freshState).map (fun s => s.mesh.m_vertCount)
        = some freshState.mesh.m_vertCount :=
  vertex_count_per_vertex_row binary32 quadText freshState "quad.obj" quadMesh quad_load.1

/-! ## Negative indices in the parse loop -/

/-- C4 (as stated, refuted).  The face token `-4294967297` does not resolve to
`vcnt - 4294967297`: the value of the token is kept in an `int`, where it is `-1`, so that
with `vcnt = 3` the token resolves to `2`. -/
theorem negative_index_beyond_int :
    decimal 4294967297 = ['4', '2', '9', '4', '9', '6', '7', '2', '9', '7']
      ∧ parseFace [' ', '-', '4', '2', '9', '4', '9', '6', '7', '2', '9', '7'] 32 3 = some [2]
      ∧ ([2] : List Int) ≠ [3 - ((4294967297 : Nat) : Int)] := by
  refine ⟨by norm_num [decimal], by decide, by decide⟩

end MeshLoaderObj
